import Mathlib

/-
Verification of the rubary Rubik's cube solver.

The development embeds the program shallowly:

* `Rubary.History` — the move-history chain of history.py, stored
  newest-first, with the destructive redundancy compression of
  `History.size` modelled as a pure chain-rewriting pass (`sizePass`)
  iterated to a fixed point (`sizeLoop`).  Loops are written with
  explicit structural fuel so that every definition evaluates inside the
  kernel; fuel-insensitivity lemmas show the fuel is always sufficient.
* `Rubary.Heap` — a heap model of the same data structure in which node
  identity and aliasing are observable; used for the structural-sharing
  claims about histories shared between cubes.
* `Rubary.Grid` and the move algebra of cube.py, the fitness suite of
  fitness.py, the genetic-algorithm step of algorithm.py, the selectors
  of selectors.py and the validity checker of validate.py.
-/

namespace Rubary

/-- `MOVES` from constants.py: printable labels for move ids 0..17. -/
def MOVES : List String :=
  ["L", "L2", "L'", "R", "R2", "R'", "F", "F2", "F'",
   "B", "B2", "B'", "U", "U2", "U'", "D", "D2", "D'"]

/-- One full scanning pass of the inner `while` loop of `History.size`
(history.py).  The chain is stored newest-first; the head of the list is
the most recently added move.  Returns the rewritten chain together with
the `size` counter of the source: the counter is `0` exactly when the
pass performed at least one edit, and otherwise counts `1` plus the
number of cursor advances (so, the chain length for a nonempty chain).

The three branches mirror the source: the pair rule for two back-to-back
moves of the same face (`current[0] // 3 == current[1][0] // 3`), the
sandwich rule for two moves of the same face separated by one move of
the opposite face (`current[0] // 6 == current[1][0] // 6` with
`current[0] // 3 == current[1][1][0] // 3`), and the advance case.
After a pair combine the rewritten current move is re-examined against
its new successor, after a pair cancel scanning resumes past the removed
pair, and after a sandwich the rewritten current move is re-examined:
each recursive call starts the scan at the matching position.
`current[0] += (mod_sum + 1) % 4 - current_mod` is written
`a - a % 3 + (s + 1) % 4`, the same value (`a % 3 ≤ a`). -/
def sizePassF : Nat → List Nat → List Nat × Nat
  | _, [] => ([], 1)
  | _, [a] => ([a], 1)
  | 0, l => (l, 1)
  | fuel + 1, a :: b :: rest =>
    if a / 3 = b / 3 then
      let s := a % 3 + b % 3
      if s = 2 then
        ((sizePassF fuel rest).1, 0)
      else
        ((sizePassF fuel ((a - a % 3 + (s + 1) % 4) :: rest)).1, 0)
    else
      match rest with
      | [] =>
        let p := sizePassF fuel [b]
        (a :: p.1, if p.2 = 0 then 0 else p.2 + 1)
      | c :: rest' =>
        if a / 6 = b / 6 ∧ a / 3 = c / 3 then
          let s := a % 3 + c % 3
          if s = 2 then
            ((sizePassF fuel (b :: rest')).1, 0)
          else
            ((sizePassF fuel ((a - a % 3 + (s + 1) % 4) :: b :: rest')).1, 0)
        else
          let p := sizePassF fuel (b :: c :: rest')
          (a :: p.1, if p.2 = 0 then 0 else p.2 + 1)

/-- One pass: each scan step leaves at least one node of the remaining
chain behind, so `l.length` steps of fuel always complete the pass. -/
def sizePass (l : List Nat) : List Nat × Nat := sizePassF l.length l

/-- The pass is insensitive to the exact amount of fuel, as long as the
fuel covers the chain length. -/
theorem sizePassF_congr :
    ∀ f1 f2 l, l.length ≤ f1 → l.length ≤ f2 → sizePassF f1 l = sizePassF f2 l := by
  intro f1
  induction f1 with
  | zero =>
    intro f2 l h1 _
    have hl : l = [] := List.eq_nil_of_length_eq_zero (Nat.le_zero.mp h1)
    subst hl
    cases f2 <;> rfl
  | succ f ih =>
    intro f2 l h1 h2
    match l with
    | [] => cases f2 <;> rfl
    | [a] => cases f2 <;> rfl
    | a :: b :: rest =>
      simp only [List.length_cons] at h1 h2
      match f2 with
      | f2' + 1 =>
        simp only [sizePassF]
        by_cases hp : a / 3 = b / 3
        · simp only [if_pos hp]
          by_cases hs : a % 3 + b % 3 = 2
          · simp only [if_pos hs]
            rw [ih f2' rest (by omega) (by omega)]
          · simp only [if_neg hs]
            rw [ih f2' _ (by simp; omega) (by simp; omega)]
        · simp only [if_neg hp]
          match rest with
          | [] =>
            simp only [ih f2' [b] (by simp; omega) (by simp; omega)]
          | c :: rest' =>
            simp only [List.length_cons] at h1 h2
            by_cases hq : a / 6 = b / 6 ∧ a / 3 = c / 3
            · simp only [if_pos hq]
              by_cases hs : a % 3 + c % 3 = 2
              · simp only [if_pos hs]
                rw [ih f2' (b :: rest') (by simp; omega) (by simp; omega)]
              · simp only [if_neg hs]
                rw [ih f2' _ (by simp; omega) (by simp; omega)]
            · simp only [if_neg hq]
              rw [ih f2' (b :: c :: rest') (by simp; omega) (by simp; omega)]

/-- Any sufficient fuel computes `sizePass`. -/
theorem sizePassF_eq {fuel : Nat} {l : List Nat} (hf : l.length ≤ fuel) :
    sizePassF fuel l = sizePass l :=
  sizePassF_congr fuel l.length l hf le_rfl

/-- Fuel normalization for a chain with one analysed head node. -/
theorem sizePassF_len1 (m : Nat) (l : List Nat) :
    sizePassF (l.length + 1) (m :: l) = sizePass (m :: l) :=
  sizePassF_eq (by simp)

/-- Fuel normalization with one extra unit of fuel. -/
theorem sizePassF_len2 (m : Nat) (l : List Nat) :
    sizePassF (l.length + 1 + 1) (m :: l) = sizePass (m :: l) :=
  sizePassF_eq (by simp only [List.length_cons]; omega)

/-- Fuel normalization for a chain with two analysed head nodes. -/
theorem sizePassF_len2' (m b : Nat) (l : List Nat) :
    sizePassF (l.length + 2) (m :: b :: l) = sizePass (m :: b :: l) :=
  sizePassF_eq (by simp only [List.length_cons]; omega)

/-- `sizePassF` at generic successor fuel: pair rule, cancelling case. -/
theorem sizePassF_pair_cancel (fuel : Nat) {a b : Nat} {rest : List Nat}
    (h : a / 3 = b / 3) (hs : a % 3 + b % 3 = 2) :
    sizePassF (fuel + 1) (a :: b :: rest) = ((sizePassF fuel rest).1, 0) := by
  simp only [sizePassF]
  simp [h, hs]

/-- `sizePassF` at generic successor fuel: pair rule, combining case. -/
theorem sizePassF_pair_combine (fuel : Nat) {a b : Nat} {rest : List Nat}
    (h : a / 3 = b / 3) (hs : a % 3 + b % 3 ≠ 2) :
    sizePassF (fuel + 1) (a :: b :: rest) =
      ((sizePassF fuel ((a - a % 3 + (a % 3 + b % 3 + 1) % 4) :: rest)).1, 0) := by
  simp only [sizePassF]
  simp [h, hs]

/-- `sizePassF` at generic successor fuel: sandwich rule, cancelling case. -/
theorem sizePassF_sand_cancel (fuel : Nat) {a b c : Nat} {rest' : List Nat}
    (h : ¬a / 3 = b / 3) (hsand : a / 6 = b / 6 ∧ a / 3 = c / 3)
    (hs : a % 3 + c % 3 = 2) :
    sizePassF (fuel + 1) (a :: b :: c :: rest') = ((sizePassF fuel (b :: rest')).1, 0) := by
  simp only [sizePassF]
  rw [if_neg h, if_pos hsand]
  simp [hs]

/-- `sizePassF` at generic successor fuel: sandwich rule, combining case. -/
theorem sizePassF_sand_combine (fuel : Nat) {a b c : Nat} {rest' : List Nat}
    (h : ¬a / 3 = b / 3) (hsand : a / 6 = b / 6 ∧ a / 3 = c / 3)
    (hs : a % 3 + c % 3 ≠ 2) :
    sizePassF (fuel + 1) (a :: b :: c :: rest') =
      ((sizePassF fuel ((a - a % 3 + (a % 3 + c % 3 + 1) % 4) :: b :: rest')).1, 0) := by
  simp only [sizePassF]
  rw [if_neg h, if_pos hsand]
  simp [hs]

/-- `sizePassF` at generic successor fuel: advance case. -/
theorem sizePassF_advance (fuel : Nat) {a b c : Nat} {rest' : List Nat}
    (h : ¬a / 3 = b / 3) (hsand : ¬(a / 6 = b / 6 ∧ a / 3 = c / 3)) :
    sizePassF (fuel + 1) (a :: b :: c :: rest') =
      (a :: (sizePassF fuel (b :: c :: rest')).1,
       if (sizePassF fuel (b :: c :: rest')).2 = 0 then 0
       else (sizePassF fuel (b :: c :: rest')).2 + 1) := by
  simp only [sizePassF]
  rw [if_neg h, if_neg hsand]

/-- Unfolding `sizePass`: pair rule, cancelling case. -/
theorem sizePass_pair_cancel {a b : Nat} {rest : List Nat} (h : a / 3 = b / 3)
    (hs : a % 3 + b % 3 = 2) :
    sizePass (a :: b :: rest) = ((sizePass rest).1, 0) := by
  show sizePassF (a :: b :: rest).length _ = _
  simp only [List.length_cons]
  rw [sizePassF_pair_cancel _ h hs, sizePassF_eq (Nat.le_succ rest.length)]

/-- Unfolding `sizePass`: pair rule, combining case. -/
theorem sizePass_pair_combine {a b : Nat} {rest : List Nat} (h : a / 3 = b / 3)
    (hs : a % 3 + b % 3 ≠ 2) :
    sizePass (a :: b :: rest) =
      ((sizePass ((a - a % 3 + (a % 3 + b % 3 + 1) % 4) :: rest)).1, 0) := by
  show sizePassF (a :: b :: rest).length _ = _
  simp only [List.length_cons]
  rw [sizePassF_pair_combine _ h hs, sizePassF_len1]

/-- Unfolding `sizePass`: two nodes of different faces, scan advances. -/
theorem sizePass_two {a b : Nat} (h : ¬a / 3 = b / 3) :
    sizePass [a, b] = ([a, b], 2) := by
  show sizePassF [a, b].length _ = _
  simp only [List.length_cons, List.length_nil, sizePassF]
  simp [h, sizePassF]

/-- Unfolding `sizePass`: sandwich rule, cancelling case. -/
theorem sizePass_sand_cancel {a b c : Nat} {rest' : List Nat} (h : ¬a / 3 = b / 3)
    (hsand : a / 6 = b / 6 ∧ a / 3 = c / 3) (hs : a % 3 + c % 3 = 2) :
    sizePass (a :: b :: c :: rest') = ((sizePass (b :: rest')).1, 0) := by
  show sizePassF (a :: b :: c :: rest').length _ = _
  simp only [List.length_cons]
  rw [sizePassF_sand_cancel _ h hsand hs, sizePassF_len2]

/-- Unfolding `sizePass`: sandwich rule, combining case. -/
theorem sizePass_sand_combine {a b c : Nat} {rest' : List Nat} (h : ¬a / 3 = b / 3)
    (hsand : a / 6 = b / 6 ∧ a / 3 = c / 3) (hs : a % 3 + c % 3 ≠ 2) :
    sizePass (a :: b :: c :: rest') =
      ((sizePass ((a - a % 3 + (a % 3 + c % 3 + 1) % 4) :: b :: rest')).1, 0) := by
  show sizePassF (a :: b :: c :: rest').length _ = _
  simp only [List.length_cons]
  rw [sizePassF_sand_combine _ h hsand hs, sizePassF_len2']

/-- Unfolding `sizePass`: no rule applies at the head, scan advances. -/
theorem sizePass_advance {a b c : Nat} {rest' : List Nat} (h : ¬a / 3 = b / 3)
    (hsand : ¬(a / 6 = b / 6 ∧ a / 3 = c / 3)) :
    sizePass (a :: b :: c :: rest') =
      (a :: (sizePass (b :: c :: rest')).1,
       if (sizePass (b :: c :: rest')).2 = 0 then 0
       else (sizePass (b :: c :: rest')).2 + 1) := by
  show sizePassF (a :: b :: c :: rest').length _ = _
  simp only [List.length_cons]
  rw [sizePassF_advance _ h hsand, sizePassF_len2']

/-- Case-analysis induction principle following the scan of `sizePass`:
the cases are the empty and singleton chains, the two pair-rule cases,
the two-node advance, the two sandwich-rule cases, and the advance. -/
theorem sizePass_induction (motive : List Nat → Prop)
    (h0 : motive [])
    (h1 : ∀ a, motive [a])
    (hpc : ∀ a b rest, a / 3 = b / 3 → a % 3 + b % 3 = 2 →
      motive rest → motive (a :: b :: rest))
    (hpm : ∀ a b rest, a / 3 = b / 3 → a % 3 + b % 3 ≠ 2 →
      motive ((a - a % 3 + (a % 3 + b % 3 + 1) % 4) :: rest) → motive (a :: b :: rest))
    (h2 : ∀ a b, ¬a / 3 = b / 3 → motive [a, b])
    (hsc : ∀ a b c rest', ¬a / 3 = b / 3 → a / 6 = b / 6 ∧ a / 3 = c / 3 →
      a % 3 + c % 3 = 2 → motive (b :: rest') → motive (a :: b :: c :: rest'))
    (hsm : ∀ a b c rest', ¬a / 3 = b / 3 → a / 6 = b / 6 ∧ a / 3 = c / 3 →
      a % 3 + c % 3 ≠ 2 → motive ((a - a % 3 + (a % 3 + c % 3 + 1) % 4) :: b :: rest') →
      motive (a :: b :: c :: rest'))
    (hadv : ∀ a b c rest', ¬a / 3 = b / 3 → ¬(a / 6 = b / 6 ∧ a / 3 = c / 3) →
      motive (b :: c :: rest') → motive (a :: b :: c :: rest')) :
    ∀ l, motive l := by
  have H : ∀ n l, l.length ≤ n → motive l := by
    intro n
    induction n with
    | zero =>
      intro l hlen
      have hl : l = [] := List.eq_nil_of_length_eq_zero (Nat.le_zero.mp hlen)
      subst hl
      exact h0
    | succ n ih =>
      intro l hlen
      match l with
      | [] => exact h0
      | [a] => exact h1 a
      | a :: b :: rest =>
        simp only [List.length_cons] at hlen
        by_cases hp : a / 3 = b / 3
        · by_cases hs : a % 3 + b % 3 = 2
          · exact hpc a b rest hp hs (ih rest (by omega))
          · exact hpm a b rest hp hs (ih _ (by simp; omega))
        · match rest with
          | [] => exact h2 a b hp
          | c :: rest' =>
            simp only [List.length_cons] at hlen
            by_cases hq : a / 6 = b / 6 ∧ a / 3 = c / 3
            · by_cases hs : a % 3 + c % 3 = 2
              · exact hsc a b c rest' hp hq hs (ih _ (by simp; omega))
              · exact hsm a b c rest' hp hq hs (ih _ (by simp; omega))
            · exact hadv a b c rest' hp hq (ih _ (by simp; omega))
  exact fun l => H l.length l le_rfl

/-- A pass that performs an edit strictly shortens the chain (each edit
removes at least one node); an unchanged pass returns the chain as is,
with the counter equal to its length (or `1` for the empty chain). -/
theorem sizePass_spec (l : List Nat) :
    ((sizePass l).2 = 0 → (sizePass l).1.length < l.length) ∧
    ((sizePass l).2 ≠ 0 → (sizePass l).1 = l ∧ (sizePass l).2 = max l.length 1) := by
  induction l using sizePass_induction with
  | h0 => simp [sizePass, sizePassF]
  | h1 a => simp [sizePass, sizePassF]
  | hpc a b rest hpair hs ih =>
    rw [sizePass_pair_cancel hpair hs]
    by_cases hz : (sizePass rest).2 = 0
    · have := ih.1 hz
      simp only [List.length_cons]
      exact ⟨fun _ => by omega, by simp⟩
    · have := (ih.2 hz).1
      simp only [List.length_cons]
      refine ⟨fun _ => ?_, by simp⟩
      have : (sizePass rest).1.length = rest.length := by rw [this]
      omega
  | hpm a b rest hpair hs ih =>
    rw [sizePass_pair_combine hpair hs]
    by_cases hz : (sizePass ((a - a % 3 + (a % 3 + b % 3 + 1) % 4) :: rest)).2 = 0
    · have := ih.1 hz
      simp only [List.length_cons] at *
      exact ⟨fun _ => by omega, by simp⟩
    · have := congrArg List.length (ih.2 hz).1
      simp only [List.length_cons] at *
      exact ⟨fun _ => by omega, by simp⟩
  | h2 a b hne =>
    rw [sizePass_two hne]
    simp
  | hsc a b c rest' hne hsand hs ih =>
    rw [sizePass_sand_cancel hne hsand hs]
    by_cases hz : (sizePass (b :: rest')).2 = 0
    · have := ih.1 hz
      simp only [List.length_cons] at *
      exact ⟨fun _ => by omega, by simp⟩
    · have := congrArg List.length (ih.2 hz).1
      simp only [List.length_cons] at *
      exact ⟨fun _ => by omega, by simp⟩
  | hsm a b c rest' hne hsand hs ih =>
    rw [sizePass_sand_combine hne hsand hs]
    by_cases hz : (sizePass ((a - a % 3 + (a % 3 + c % 3 + 1) % 4) :: b :: rest')).2 = 0
    · have := ih.1 hz
      simp only [List.length_cons] at *
      exact ⟨fun _ => by omega, by simp⟩
    · have := congrArg List.length (ih.2 hz).1
      simp only [List.length_cons] at *
      exact ⟨fun _ => by omega, by simp⟩
  | hadv a b c rest' hne hsand ih =>
    rw [sizePass_advance hne hsand]
    by_cases hz : (sizePass (b :: c :: rest')).2 = 0
    · have hlt := ih.1 hz
      rw [if_pos hz]
      refine ⟨fun _ => ?_, by simp⟩
      simp only [List.length_cons] at *
      omega
    · have ha := (ih.2 hz).1
      have hb := (ih.2 hz).2
      rw [if_neg hz]
      refine ⟨fun hcon => absurd hcon (by simp), fun _ => ⟨by simp [ha], ?_⟩⟩
      simp only [List.length_cons] at hb ⊢
      omega

/-- The outer `while not size` loop of `History.size` (history.py):
repeat full passes until a pass makes no change.  Each editing pass
strictly shortens the chain, so fuel `l.length + 1` always reaches the
pass that makes no change. -/
def sizeLoopF : Nat → List Nat → List Nat × Nat
  | 0, l => sizePass l
  | fuel + 1, l =>
    let p := sizePass l
    if p.2 = 0 then sizeLoopF fuel p.1 else p

/-- The compression loop with always-sufficient fuel. -/
def sizeLoop (l : List Nat) : List Nat × Nat := sizeLoopF (l.length + 1) l

/-- The loop is insensitive to the exact amount of fuel, as long as the
fuel exceeds the chain length. -/
theorem sizeLoopF_congr :
    ∀ f1 f2 l, l.length < f1 → l.length < f2 → sizeLoopF f1 l = sizeLoopF f2 l := by
  intro f1
  induction f1 with
  | zero => omega
  | succ f ih =>
    intro f2 l h1 h2
    match f2 with
    | f2' + 1 =>
      simp only [sizeLoopF]
      by_cases hz : (sizePass l).2 = 0
      · have hlt := (sizePass_spec l).1 hz
        rw [if_pos hz, if_pos hz, ih f2' (sizePass l).1 (by omega) (by omega)]
      · rw [if_neg hz, if_neg hz]

/-- Any sufficient fuel computes `sizeLoop`. -/
theorem sizeLoopF_eq {fuel : Nat} {l : List Nat} (hf : l.length < fuel) :
    sizeLoopF fuel l = sizeLoop l :=
  sizeLoopF_congr fuel (l.length + 1) l hf (Nat.lt_succ_self _)

/-- Unfolding `sizeLoop`. -/
theorem sizeLoop_eq (l : List Nat) :
    sizeLoop l =
      if (sizePass l).2 = 0 then sizeLoop (sizePass l).1 else sizePass l := by
  show sizeLoopF (l.length + 1) l = _
  simp only [sizeLoopF]
  by_cases hz : (sizePass l).2 = 0
  · have hlt := (sizePass_spec l).1 hz
    rw [if_pos hz, if_pos hz, sizeLoopF_congr l.length ((sizePass l).1.length + 1) _
      (by omega) (Nat.lt_succ_self _)]
    rfl
  · rw [if_neg hz, if_neg hz]

/-- The loop stops at a chain on which a pass makes no change; the final
counter is the final chain's length (or 1 when it is empty); and running
the loop again from the final chain changes nothing. -/
theorem sizeLoop_spec (l : List Nat) :
    (sizePass (sizeLoop l).1).2 ≠ 0 ∧
    (sizeLoop l).2 = max (sizeLoop l).1.length 1 ∧
    sizeLoop (sizeLoop l).1 = sizeLoop l := by
  have H : ∀ n l, l.length ≤ n →
      (sizePass (sizeLoop l).1).2 ≠ 0 ∧
      (sizeLoop l).2 = max (sizeLoop l).1.length 1 ∧
      sizeLoop (sizeLoop l).1 = sizeLoop l := by
    intro n
    induction n with
    | zero =>
      intro l hlen
      have hl : l = [] := List.eq_nil_of_length_eq_zero (Nat.le_zero.mp hlen)
      subst hl
      have h0 : sizeLoop [] = ([], 1) := by
        rw [sizeLoop_eq]
        simp [sizePass, sizePassF]
      rw [h0]
      simp only [h0]
      simp [sizePass, sizePassF, h0]
    | succ n ih =>
      intro l hlen
      by_cases hz : (sizePass l).2 = 0
      · have hlt := (sizePass_spec l).1 hz
        have hrw : sizeLoop l = sizeLoop (sizePass l).1 := by
          rw [sizeLoop_eq, if_pos hz]
        rw [hrw]
        exact ih (sizePass l).1 (by omega)
      · have hfix := ((sizePass_spec l).2 hz).1
        have hcnt := ((sizePass_spec l).2 hz).2
        have hrw : sizeLoop l = sizePass l := by
          rw [sizeLoop_eq, if_neg hz]
        rw [hrw]
        refine ⟨?_, ?_, ?_⟩
        · rw [hfix]
          exact hz
        · rw [hcnt, hfix]
        · rw [hfix, hrw]
  exact H l.length l le_rfl

/-- `History` from history.py, pure view: `history` is the chain of move
ids stored newest-first (the nested `[move, tail]` lists flattened). -/
structure History where
  history : List Nat

/-- `History.add`: prepend a move (`self.history = [move, self.history]`). -/
def History.add (h : History) (move : Nat) : History :=
  ⟨move :: h.history⟩

/-- `History.clear`. -/
def History.clear (_h : History) : History := ⟨[]⟩

/-- `History.get_ptr`. -/
def History.get_ptr (h : History) : List Nat := h.history

/-- `History.copy`: adopt the other history's chain. -/
def History.copy (_h : History) (other : History) : History :=
  ⟨other.get_ptr⟩

/-- `History.size`: run the redundancy compression in place and return
the resulting count (`size if self.history else 0`) together with the
mutated history. -/
def History.size (h : History) : Nat × History :=
  let p := sizeLoop h.history
  (if p.1 = [] then 0 else p.2, ⟨p.1⟩)

/-- `MOVES[m]` (every move id stored by the program is in 0..17). -/
def moveLabel (m : Nat) : String := MOVES.getD m "?"

/-- `History.get`: compress via `size`, then read off the `size` oldest
to newest labels (`moves[i], ptr = MOVES[ptr[0]], ptr[1]` walking the
chain with `i` counting down). -/
def History.get (h : History) : List String × History :=
  let p := h.size
  (((p.2.history.take p.1).map moveLabel).reverse, p.2)

/-- No two adjacent moves of the chain turn the same face
(`id // 3` equal). -/
def noAdjacentSameFace : List Nat → Prop
  | a :: b :: rest => ¬(a / 3 = b / 3) ∧ noAdjacentSameFace (b :: rest)
  | _ => True

/-- No compressible 3-move sandwich: no triple whose two ends turn the
same face (`id // 3` equal) with the middle move turning the opposite
face (`id // 6` equal to the first's but a different face). -/
def noSandwich : List Nat → Prop
  | a :: b :: c :: rest =>
      ¬(¬a / 3 = b / 3 ∧ a / 6 = b / 6 ∧ a / 3 = c / 3) ∧ noSandwich (b :: c :: rest)
  | _ => True

/-- A pass makes no change exactly when the chain has no pair redex and
no sandwich redex. -/
theorem sizePass_nochange_iff (l : List Nat) :
    (sizePass l).2 ≠ 0 ↔ noAdjacentSameFace l ∧ noSandwich l := by
  induction l using sizePass_induction with
  | h0 => simp [sizePass, sizePassF, noAdjacentSameFace, noSandwich]
  | h1 a => simp [sizePass, sizePassF, noAdjacentSameFace, noSandwich]
  | hpc a b rest hpair hs ih =>
    rw [sizePass_pair_cancel hpair hs]
    have hbad : ¬ noAdjacentSameFace (a :: b :: rest) := fun hp => hp.1 hpair
    simp [hbad]
  | hpm a b rest hpair hs ih =>
    rw [sizePass_pair_combine hpair hs]
    have hbad : ¬ noAdjacentSameFace (a :: b :: rest) := fun hp => hp.1 hpair
    simp [hbad]
  | h2 a b hne =>
    rw [sizePass_two hne]
    simp [noAdjacentSameFace, noSandwich, hne]
  | hsc a b c rest' hne hsand hs ih =>
    rw [sizePass_sand_cancel hne hsand hs]
    have hbad : ¬ noSandwich (a :: b :: c :: rest') :=
      fun hp => hp.1 ⟨hne, hsand.1, hsand.2⟩
    simp [hbad]
  | hsm a b c rest' hne hsand hs ih =>
    rw [sizePass_sand_combine hne hsand hs]
    have hbad : ¬ noSandwich (a :: b :: c :: rest') :=
      fun hp => hp.1 ⟨hne, hsand.1, hsand.2⟩
    simp [hbad]
  | hadv a b c rest' hne hsand ih =>
    rw [sizePass_advance hne hsand]
    have h1 : noAdjacentSameFace (a :: b :: c :: rest') ↔
        noAdjacentSameFace (b :: c :: rest') := by
      constructor
      · exact fun hp => hp.2
      · exact fun hp => ⟨hne, hp⟩
    have h2 : noSandwich (a :: b :: c :: rest') ↔ noSandwich (b :: c :: rest') := by
      constructor
      · exact fun hp => hp.2
      · exact fun hp => ⟨fun hk => hsand ⟨hk.2.1, hk.2.2⟩, hp⟩
    rw [h1, h2, ← ih]
    by_cases hz : (sizePass (b :: c :: rest')).2 = 0
    · simp [hz]
    · simp [hz]

/-- `History.size` returns the length of the compressed chain, which is
a normal form: no pair redex, no sandwich redex, and compressing again
changes nothing and returns the same count. -/
theorem History.size_spec (h : History) :
    (h.size).1 = (h.size).2.history.length ∧
    noAdjacentSameFace (h.size).2.history ∧
    noSandwich (h.size).2.history ∧
    ((h.size).2).size = h.size := by
  obtain ⟨hfix, hcnt, hidem⟩ := sizeLoop_spec h.history
  have hsz : h.size =
      (if (sizeLoop h.history).1 = [] then 0 else (sizeLoop h.history).2,
       ⟨(sizeLoop h.history).1⟩) := rfl
  obtain ⟨hnf1, hnf2⟩ := (sizePass_nochange_iff (sizeLoop h.history).1).1 hfix
  refine ⟨?_, hnf1, hnf2, ?_⟩
  · rw [hsz]
    by_cases hr : (sizeLoop h.history).1 = []
    · simp [hr]
    · have : (sizeLoop h.history).1.length ≠ 0 := by
        simpa using fun hk => hr (List.length_eq_zero.mp hk)
      simp only [hsz, if_neg hr, hcnt]
      omega
  · show ((⟨(sizeLoop h.history).1⟩ : History)).size = _
    unfold History.size
    simp only [hidem]

/-- The facelet grid of cube.py: 6 sides × 8 non-center positions
(`self.cube = [[side] * 8 for side in range(6)]` creates the solved
grid).  Sides are ordered L, R, F, B, U, D = 0..5.  The value type is a
parameter because the move operations only transport values. -/
def Grid (α : Type) := Fin 6 → Fin 8 → α

/-- The solved grid: `facelets[side][*] = side`. -/
def solvedGrid : Grid Nat := fun s _ => s.val

/-- `CW_BORDERS_OF` from constants.py: for each side, the lowest index
of each bordering side in clockwise order; tiles are (side, index). -/
def CW_BORDERS_OF (side : Fin 6) :
    (Fin 6 × Fin 8) × (Fin 6 × Fin 8) × (Fin 6 × Fin 8) × (Fin 6 × Fin 8) :=
  match side with
  | 0 => ((2, 6), (5, 6), (3, 2), (4, 6))
  | 1 => ((2, 2), (4, 2), (3, 6), (5, 2))
  | 2 => ((0, 2), (4, 4), (1, 6), (5, 0))
  | 3 => ((0, 6), (5, 4), (1, 2), (4, 0))
  | 4 => ((0, 0), (3, 0), (1, 0), (2, 0))
  | 5 => ((0, 4), (2, 4), (1, 4), (3, 4))

/-- Write one tile of the grid. -/
def setTile {α : Type} (g : Grid α) (t : Fin 6 × Fin 8) (v : α) : Grid α :=
  fun s i => if (s, i) = t then v else g s i

/-- Offset a tile's index by `k` positions, wrapping mod 8
(`(i + 1) % 8` in the source's border loop). -/
def offTile (t : Fin 6 × Fin 8) (k : Fin 8) : Fin 6 × Fin 8 :=
  (t.1, t.2 + k)

/-- One simultaneous assignment writing `v1 v2 v3 v4` into the four
border tiles (the tuple assignment in the source's border loop). -/
def cycle4 {α : Type} (g : Grid α) (t1 t2 t3 t4 : Fin 6 × Fin 8)
    (v1 v2 v3 v4 : α) : Grid α :=
  setTile (setTile (setTile (setTile g t1 v1) t2 v2) t3 v3) t4 v4

/-- Rotate the 8 facelets of `side` so that `new[j] = old[(j + r) % 8]`:
`r = 6` is the clockwise rotation list `6,7,0,1,2,3,4,5`, `r = 4` the
half-turn list and `r = 2` the counter-clockwise list. -/
def faceRot {α : Type} (g : Grid α) (side : Fin 6) (r : Fin 8) : Grid α :=
  fun s i => if s = side then g s (i + r) else g s i

/-- `Cube.__cw`: rotate the face clockwise and shift the three border
4-cycles by `front, down, back, up = up, front, down, back`. -/
def cwMove {α : Type} (side : Fin 6) (g : Grid α) : Grid α :=
  let g1 := faceRot g side 6
  let t := CW_BORDERS_OF side
  let step := fun (g' : Grid α) (k : Fin 8) =>
    let u1 := offTile t.1 k
    let u2 := offTile t.2.1 k
    let u3 := offTile t.2.2.1 k
    let u4 := offTile t.2.2.2 k
    cycle4 g' u1 u2 u3 u4 (g' u4.1 u4.2) (g' u1.1 u1.2) (g' u2.1 u2.2) (g' u3.1 u3.2)
  step (step (step g1 0) 1) 2

/-- `Cube.__half`: rotate the face by four and shift the border cycles
by `front, down, back, up = back, up, front, down`. -/
def halfMove {α : Type} (side : Fin 6) (g : Grid α) : Grid α :=
  let g1 := faceRot g side 4
  let t := CW_BORDERS_OF side
  let step := fun (g' : Grid α) (k : Fin 8) =>
    let u1 := offTile t.1 k
    let u2 := offTile t.2.1 k
    let u3 := offTile t.2.2.1 k
    let u4 := offTile t.2.2.2 k
    cycle4 g' u1 u2 u3 u4 (g' u3.1 u3.2) (g' u4.1 u4.2) (g' u1.1 u1.2) (g' u2.1 u2.2)
  step (step (step g1 0) 1) 2

/-- `Cube.__ccw`: rotate the face by two and shift the border cycles by
`front, down, back, up = down, back, up, front`. -/
def ccwMove {α : Type} (side : Fin 6) (g : Grid α) : Grid α :=
  let g1 := faceRot g side 2
  let t := CW_BORDERS_OF side
  let step := fun (g' : Grid α) (k : Fin 8) =>
    let u1 := offTile t.1 k
    let u2 := offTile t.2.1 k
    let u3 := offTile t.2.2.1 k
    let u4 := offTile t.2.2.2 k
    cycle4 g' u1 u2 u3 u4 (g' u2.1 u2.2) (g' u3.1 u3.2) (g' u4.1 u4.2) (g' u1.1 u1.2)
  step (step (step g1 0) 1) 2

/-- The facelet permutation of `Cube.move` (cube.py): `side = id // 3`,
`rotation = id % 3` selecting clockwise, half or counter-clockwise.
Every move id the program produces is in 0..17. -/
def moveGrid {α : Type} (moveId : Nat) (g : Grid α) : Grid α :=
  let side : Fin 6 := ⟨moveId / 3 % 6, Nat.mod_lt _ (by omega)⟩
  let rotation := moveId % 3
  if rotation = 0 then cwMove side g
  else if rotation = 1 then halfMove side g
  else ccwMove side g

/-- The position a `cycle4` of values read at `w1 w2 w3 w4` makes each
tile read from. -/
def readMap4 (u1 u2 u3 u4 w1 w2 w3 w4 p : Fin 6 × Fin 8) : Fin 6 × Fin 8 :=
  if p = u4 then w4 else if p = u3 then w3 else if p = u2 then w2
  else if p = u1 then w1 else p

/-- The position `faceRot` makes each tile read from. -/
def faceRotMap (side : Fin 6) (r : Fin 8) (p : Fin 6 × Fin 8) : Fin 6 × Fin 8 :=
  if p.1 = side then (p.1, p.2 + r) else p

/-- A `cycle4` whose written values are reads of the same grid is a
precomposition with `readMap4`. -/
theorem cycle4_read {α : Type} (g : Grid α) (u1 u2 u3 u4 w1 w2 w3 w4 : Fin 6 × Fin 8) :
    cycle4 g u1 u2 u3 u4 (g w1.1 w1.2) (g w2.1 w2.2) (g w3.1 w3.2) (g w4.1 w4.2) =
      fun s i => g (readMap4 u1 u2 u3 u4 w1 w2 w3 w4 (s, i)).1
        (readMap4 u1 u2 u3 u4 w1 w2 w3 w4 (s, i)).2 := by
  funext s i
  simp only [cycle4, setTile, readMap4]
  by_cases h4 : (s, i) = u4
  · simp [h4]
  · simp only [if_neg h4]
    by_cases h3 : (s, i) = u3
    · simp [h3]
    · simp only [if_neg h3]
      by_cases h2 : (s, i) = u2
      · simp [h2]
      · simp only [if_neg h2]
        by_cases h1 : (s, i) = u1
        · simp [h1]
        · simp only [if_neg h1]

/-- `faceRot` is a precomposition with `faceRotMap`. -/
theorem faceRot_read {α : Type} (g : Grid α) (side : Fin 6) (r : Fin 8) :
    faceRot g side r =
      fun s i => g (faceRotMap side r (s, i)).1 (faceRotMap side r (s, i)).2 := by
  funext s i
  simp only [faceRot, faceRotMap]
  by_cases h : s = side
  · simp [h]
  · simp [h]

/-- The index permutation of `Cube.__cw`. -/
def cwPos (side : Fin 6) (p : Fin 6 × Fin 8) : Fin 6 × Fin 8 :=
  let t := CW_BORDERS_OF side
  let m := fun (k : Fin 8) (q : Fin 6 × Fin 8) =>
    readMap4 (offTile t.1 k) (offTile t.2.1 k) (offTile t.2.2.1 k) (offTile t.2.2.2 k)
      (offTile t.2.2.2 k) (offTile t.1 k) (offTile t.2.1 k) (offTile t.2.2.1 k) q
  faceRotMap side 6 (m 0 (m 1 (m 2 p)))

/-- The index permutation of `Cube.__half`. -/
def halfPos (side : Fin 6) (p : Fin 6 × Fin 8) : Fin 6 × Fin 8 :=
  let t := CW_BORDERS_OF side
  let m := fun (k : Fin 8) (q : Fin 6 × Fin 8) =>
    readMap4 (offTile t.1 k) (offTile t.2.1 k) (offTile t.2.2.1 k) (offTile t.2.2.2 k)
      (offTile t.2.2.1 k) (offTile t.2.2.2 k) (offTile t.1 k) (offTile t.2.1 k) q
  faceRotMap side 4 (m 0 (m 1 (m 2 p)))

/-- The index permutation of `Cube.__ccw`. -/
def ccwPos (side : Fin 6) (p : Fin 6 × Fin 8) : Fin 6 × Fin 8 :=
  let t := CW_BORDERS_OF side
  let m := fun (k : Fin 8) (q : Fin 6 × Fin 8) =>
    readMap4 (offTile t.1 k) (offTile t.2.1 k) (offTile t.2.2.1 k) (offTile t.2.2.2 k)
      (offTile t.2.1 k) (offTile t.2.2.1 k) (offTile t.2.2.2 k) (offTile t.1 k) q
  faceRotMap side 2 (m 0 (m 1 (m 2 p)))

/-- `Cube.__cw` reads each tile from `cwPos` of its position. -/
theorem cwMove_read {α : Type} (side : Fin 6) (g : Grid α) :
    cwMove side g = fun s i => g (cwPos side (s, i)).1 (cwPos side (s, i)).2 := by
  show (let g1 := faceRot g side 6
    let t := CW_BORDERS_OF side
    let step := fun (g' : Grid α) (k : Fin 8) =>
      let u1 := offTile t.1 k
      let u2 := offTile t.2.1 k
      let u3 := offTile t.2.2.1 k
      let u4 := offTile t.2.2.2 k
      cycle4 g' u1 u2 u3 u4 (g' u4.1 u4.2) (g' u1.1 u1.2) (g' u2.1 u2.2) (g' u3.1 u3.2)
    step (step (step g1 0) 1) 2) = _
  simp only [cycle4_read, faceRot_read]
  rfl

/-- `Cube.__half` reads each tile from `halfPos` of its position. -/
theorem halfMove_read {α : Type} (side : Fin 6) (g : Grid α) :
    halfMove side g = fun s i => g (halfPos side (s, i)).1 (halfPos side (s, i)).2 := by
  show (let g1 := faceRot g side 4
    let t := CW_BORDERS_OF side
    let step := fun (g' : Grid α) (k : Fin 8) =>
      let u1 := offTile t.1 k
      let u2 := offTile t.2.1 k
      let u3 := offTile t.2.2.1 k
      let u4 := offTile t.2.2.2 k
      cycle4 g' u1 u2 u3 u4 (g' u3.1 u3.2) (g' u4.1 u4.2) (g' u1.1 u1.2) (g' u2.1 u2.2)
    step (step (step g1 0) 1) 2) = _
  simp only [cycle4_read, faceRot_read]
  rfl

/-- `Cube.__ccw` reads each tile from `ccwPos` of its position. -/
theorem ccwMove_read {α : Type} (side : Fin 6) (g : Grid α) :
    ccwMove side g = fun s i => g (ccwPos side (s, i)).1 (ccwPos side (s, i)).2 := by
  show (let g1 := faceRot g side 2
    let t := CW_BORDERS_OF side
    let step := fun (g' : Grid α) (k : Fin 8) =>
      let u1 := offTile t.1 k
      let u2 := offTile t.2.1 k
      let u3 := offTile t.2.2.1 k
      let u4 := offTile t.2.2.2 k
      cycle4 g' u1 u2 u3 u4 (g' u2.1 u2.2) (g' u3.1 u3.2) (g' u4.1 u4.2) (g' u1.1 u1.2)
    step (step (step g1 0) 1) 2) = _
  simp only [cycle4_read, faceRot_read]
  rfl

/-- **C4.** Move group closure on the facelet grid, for every one of
the 6 faces and every facelet grid (hence in particular every grid
reachable by legal moves): four clockwise turns restore the grid,
clockwise followed by counter-clockwise restores the grid, and two
clockwise turns equal one half-turn. -/
theorem move_group_closure (side : Fin 6) (g : Grid Nat) :
    cwMove side (cwMove side (cwMove side (cwMove side g))) = g ∧
    ccwMove side (cwMove side g) = g ∧
    cwMove side (cwMove side g) = halfMove side g := by
  have h4 : ∀ p, cwPos side (cwPos side (cwPos side (cwPos side p))) = p := by
    fin_cases side <;> decide
  have hcc : ∀ p, cwPos side (ccwPos side p) = p := by
    fin_cases side <;> decide
  have hh : ∀ p, cwPos side (cwPos side p) = halfPos side p := by
    fin_cases side <;> decide
  refine ⟨?_, ?_, ?_⟩
  · simp only [cwMove_read]
    funext s i
    rw [h4 (s, i)]
  · simp only [cwMove_read, ccwMove_read]
    funext s i
    rw [hcc (s, i)]
  · simp only [cwMove_read, halfMove_read]
    funext s i
    rw [hh (s, i)]

/-- Python values that can reach the `fitness_score` attribute: the
numeric value passed to `set_fitness_score`, or the bound method object
`self.size` — `get_fitness_score` in cube.py is `return self.size`,
returning the method itself rather than the stored score. -/
inductive PyVal where
  | int (n : Int) : PyVal
  | sizeMethod : PyVal
deriving DecidableEq

/-- `Cube` from cube.py: facelet grid, attached history, cached raw
fitness and composite fitness score. -/
structure Cube where
  cube : Grid Nat
  history : History
  fitness : Int
  fitness_score : PyVal

/-- `Cube.__init__`: solved grid, empty history, zero fitness. -/
def cubeInit : Cube :=
  { cube := solvedGrid, history := ⟨[]⟩, fitness := 0, fitness_score := .int 0 }

/-- `Cube.get`: the color of a tile. -/
def Cube.get (c : Cube) (t : Fin 6 × Fin 8) : Nat := c.cube t.1 t.2

/-- `Cube.get_cube` (value copy of the grid). -/
def Cube.get_cube (c : Cube) : Grid Nat := c.cube

/-- `Cube.get_history_ptr`. -/
def Cube.get_history_ptr (c : Cube) : History := c.history

/-- `Cube.get_history` (runs compression via `History.get`). -/
def Cube.get_history (c : Cube) : List String × Cube :=
  let p := c.history.get
  (p.1, { c with history := p.2 })

/-- `Cube.clear_history`. -/
def Cube.clear_history (c : Cube) : Cube :=
  { c with history := c.history.clear }

/-- `Cube.size` (runs compression via `History.size`). -/
def Cube.size (c : Cube) : Nat × Cube :=
  let p := c.history.size
  (p.1, { c with history := p.2 })

/-- `Cube.get_fitness`. -/
def Cube.get_fitness (c : Cube) : Int := c.fitness

/-- `Cube.set_fitness`. -/
def Cube.set_fitness (c : Cube) (f : Int) : Cube := { c with fitness := f }

/-- `Cube.get_fitness_score` — cube.py line 136: `return self.size`.
This returns the bound method object, not the stored
`fitness_score`. -/
def Cube.get_fitness_score (_c : Cube) : PyVal := PyVal.sizeMethod

/-- `Cube.set_fitness_score`. -/
def Cube.set_fitness_score (c : Cube) (v : PyVal) : Cube :=
  { c with fitness_score := v }

/-- `Cube.move`: apply the facelet permutation of the move id and append
it to the history. -/
def Cube.move (c : Cube) (moveId : Nat) : Cube :=
  { c with cube := moveGrid moveId c.cube, history := c.history.add moveId }

/-- `Cube.reset`: re-run `__init__`. -/
def Cube.reset (_c : Cube) : Cube := cubeInit

/-- `Cube.copy`: value-copy the grid, adopt the other's history chain,
copy `fitness`, and store `other.get_fitness_score()` — which is the
other cube's bound `size` method, not its numeric score — into
`fitness_score`. -/
def Cube.copy (c other : Cube) : Cube :=
  { cube := other.get_cube,
    history := c.history.copy other.get_history_ptr,
    fitness := other.get_fitness,
    fitness_score := other.get_fitness_score }

/-- `miscolored_tiles` from fitness.py: the number of tiles whose color
differs from their side's color. -/
def miscolored_tiles (c : Cube) : Int :=
  (List.finRange 8).foldl
    (fun score i =>
      score + (if c.get (0, i) ≠ 0 then 1 else 0) + (if c.get (1, i) ≠ 1 then 1 else 0) +
      (if c.get (2, i) ≠ 2 then 1 else 0) + (if c.get (3, i) ≠ 3 then 1 else 0) +
      (if c.get (4, i) ≠ 4 then 1 else 0) + (if c.get (5, i) ≠ 5 then 1 else 0)) 0

/-- `is_solved` from validate.py: `not miscolored_tiles(cube)`. -/
def is_solved (c : Cube) : Bool := miscolored_tiles c == 0

/-- Python booleans used as integers in arithmetic. -/
def ib (b : Bool) : Int := if b then 1 else 0

/-- `LR`, `FB`, `UD` from constants.py (`if color in LR:` checks). -/
def LR : List Nat := [0, 1]

/-- The front/back color pair. -/
def FB : List Nat := [2, 3]

/-- The up/down color pair. -/
def UD : List Nat := [4, 5]

/-- Tile access with a dynamically computed index (all source call
sites stay inside 0..7; the wrap mirrors nothing observable). -/
def Cube.getD8 (c : Cube) (s : Fin 6) (i : Nat) : Nat :=
  c.cube s ⟨i % 8, Nat.mod_lt _ (by omega)⟩

/-- `edge_flipped_correctly` from fitness.py:
`color_1 not in FB and color_2 not in UD`. -/
def edge_flipped_correctly (c1 c2 : Nat) : Bool :=
  decide (c1 ∉ FB) && decide (c2 ∉ UD)

/-- `misoriented_edges`: 12 minus the correctly flipped edges, over the
fixed edge tile list (L3 F7, R7 F3, L7 B3, R3 B7, U7 L1, U3 R1, U5 F1,
D7 L5, D3 R5, U1 B1, D1 F5, D5 B5). -/
def misoriented_edges (c : Cube) : Int :=
  ([((0, 3), (2, 7)), ((1, 7), (2, 3)), ((0, 7), (3, 3)), ((1, 3), (3, 7)),
    ((4, 7), (0, 1)), ((4, 3), (1, 1)), ((4, 5), (2, 1)), ((5, 7), (0, 5)),
    ((5, 3), (1, 5)), ((4, 1), (3, 1)), ((5, 1), (2, 5)), ((5, 5), (3, 5))] :
      List ((Fin 6 × Fin 8) × (Fin 6 × Fin 8))).foldl
    (fun score e => score - ib (edge_flipped_correctly (c.get e.1) (c.get e.2))) 12

/-- `G0_WEIGHT * misoriented_edges`. -/
def g0_fitness (c : Cube) : Int := 10 * misoriented_edges c

/-- `misplaced_middle_edges`: count middle-edge positions (L3, L7, R7,
R3) holding a UD color, with the two-wrong credit schedule. -/
def misplaced_middle_edges (c : Cube) : Int :=
  let r := ([(0, ((0 : Fin 6), (3 : Fin 8))), (1, (0, 7)), (2, (1, 7)), (3, (1, 3))] :
      List (Nat × (Fin 6 × Fin 8))).foldl
    (fun acc p => if c.get p.2 ∈ UD then (acc.1 + 1, acc.2 + p.1) else acc)
    ((0 : Int), (0 : Nat))
  if r.1 ≠ 2 then r.1 * 3
  else if r.2 % 2 = 1 then 2
  else if c.getD8 4 (6 - r.2) ∈ LR ∧ c.getD8 5 r.2 ∈ LR then 1 else 2

/-- `G1A_WEIGHT * misplaced_middle_edges`. -/
def g1a_fitness (c : Cube) : Int := 10 * misplaced_middle_edges c

/-- `misoriented_corners`: UD-corner tiles not showing a UD color, with
a credit for corner pairs that are both UD. -/
def misoriented_corners (c : Cube) : Int :=
  let score := ([((4 : Fin 6), (0 : Fin 8)), (4, 2), (4, 4), (4, 6),
      (5, 0), (5, 2), (5, 4), (5, 6)] : List (Fin 6 × Fin 8)).foldl
    (fun s t => s + ib (decide (c.get t ∉ UD))) 0
  if score < 2 then score
  else ([(((1 : Fin 6), (0 : Fin 8)), ((3 : Fin 6), (6 : Fin 8))), ((1, 2), (2, 4)),
      ((1, 4), (2, 2)), ((1, 6), (3, 0)), ((0, 0), (2, 6)), ((0, 2), (3, 4)),
      ((0, 4), (3, 2)), ((0, 6), (2, 0))] :
        List ((Fin 6 × Fin 8) × (Fin 6 × Fin 8))).foldl
    (fun s p => if c.get p.1 ∈ UD ∧ c.get p.2 ∈ UD then s - 1 else s) score

/-- `g1a_fitness + G1B_WEIGHT * misoriented_corners`. -/
def g1b_fitness (c : Cube) : Int := g1a_fitness c + 40 * misoriented_corners c

/-- `uniform_top_corners`: turns needed to make the top corner colors
uniform (analytic lookup by the number of U tiles on U corners). -/
def uniform_top_corners (c : Cube) : Int :=
  let r := ([0, 2, 4, 6] : List Nat).foldl
    (fun (acc : Nat × Option Nat × Option Nat) i =>
      if c.getD8 4 i = 4 then (acc.1 + 1, some i, acc.2.2)
      else (acc.1, acc.2.1, some i))
    (0, none, none)
  let u_on_u := r.1
  if u_on_u = 0 ∨ u_on_u = 4 then 0
  else if u_on_u = 1 then
    let u := (r.2.1.getD 0) % 4
    if c.getD8 5 u = 5 ∨ c.getD8 5 (u + 4) = 5 then 3 else 4
  else if u_on_u = 3 then
    let d := (r.2.2.getD 0) % 4
    if c.getD8 5 d = 4 ∨ c.getD8 5 (d + 4) = 4 then 3 else 4
  else
    let u_diag := c.get (4, 0) = c.get (4, 4)
    let d_diag := c.get (5, 0) = c.get (5, 4)
    if u_diag ∧ d_diag then (if c.get (4, 0) = c.get (5, 6) then 3 else 4)
    else if u_diag ∨ d_diag then 5
    else if c.get (4, 0) = c.get (5, 2) ∧ c.get (4, 2) = c.get (5, 0) then 1
    else 2

/-- `corner_pairs`: conformity of the top/bottom corner pairs around
the LRFB band, scored toward the closer of all-match or all-mismatch. -/
def corner_pairs (c : Cube) : Int :=
  let r := ([0, 1, 2, 3] : List (Fin 6)).foldl
    (fun (acc : Int × Int × Int) side =>
      let mism : Int := ib (decide (¬(c.get (side, 0) = c.get (side, 2)))) +
        ib (decide (¬(c.get (side, 4) = c.get (side, 6))))
      if mism = 0 then (acc.1, acc.2.1 + 1, acc.2.2)
      else (acc.1 + mism, acc.2.1, if mism = 2 then acc.2.2 + 1 else acc.2.2))
    (0, 0, 0)
  let score := r.1
  if score = 0 ∨ score = 8 then
    ib (decide (c.get (0, 0) ∉ LR)) + ib (decide (c.get (0, 4) ∉ LR))
  else
    let score := score * 4
    let matching := r.2.1 * 5
    let mismatching := r.2.2 * 5
    if score < 16 then score - mismatching
    else if score > 16 then 32 - score - matching
    else 16 - max matching mismatching

/-- `edge_colors`: sum-of-squares lookup from the two edge-circuit
wrong counts to an analytic move distance (100000 on fall-through). -/
def edge_colors (c : Cube) : Int :=
  let circuit0 := ib (decide (c.get (0, 1) ∉ LR)) + ib (decide (c.get (1, 1) ∉ LR)) +
    ib (decide (c.get (2, 5) ∉ FB)) + ib (decide (c.get (3, 5) ∉ FB))
  let circuit1 := ib (decide (c.get (0, 5) ∉ LR)) + ib (decide (c.get (1, 5) ∉ LR)) +
    ib (decide (c.get (2, 1) ∉ FB)) + ib (decide (c.get (3, 1) ∉ FB))
  let ss := circuit0 ^ 2 + circuit1 ^ 2
  match (([(0, 0), (16, 4), (10, 5), (8, 6), (32, 6), (2, 9), (4, 10), (18, 9),
      (20, 10)] : List (Int × Int)).find? (fun p => p.1 == ss)) with
  | some p => p.2
  | none => 100000

/-- `g2_fitness`. -/
def g2_fitness (c : Cube) : Int :=
  16000 * uniform_top_corners c + 800 * corner_pairs c + 50 * edge_colors c

/-- `fbud_edges`. -/
def fbud_edges (c : Cube) : Int :=
  ib (decide (c.get (2, 3) ≠ 2)) + ib (decide (c.get (2, 7) ≠ 2)) +
  ib (decide (c.get (4, 3) ≠ 4)) + ib (decide (c.get (4, 7) ≠ 4))

/-- `uniform_top`: the top row of the side is uniform. -/
def uniform_top (c : Cube) (side : Fin 6) : Bool :=
  decide (c.get (side, 0) = c.get (side, 1) ∧ c.get (side, 1) = c.get (side, 2))

/-- `uniform_bottom`: the bottom row of the side is uniform. -/
def uniform_bottom (c : Cube) (side : Fin 6) : Bool :=
  decide (c.get (side, 4) = c.get (side, 5) ∧ c.get (side, 5) = c.get (side, 6))

/-- `fbud_rows`. -/
def fbud_rows (c : Cube) : Int :=
  ([2, 3, 4, 5] : List (Fin 6)).foldl
    (fun s side => s - (ib (uniform_top c side) + ib (uniform_bottom c side))) 8

/-- `g3a_fitness`. -/
def g3a_fitness (c : Cube) : Int := 15 * fbud_edges c + 75 * fbud_rows c

/-- `ud_tiles`. -/
def ud_tiles (c : Cube) : Int :=
  (List.finRange 8).foldl (fun s i => s + ib (decide (c.get (4, i) ≠ 4))) 0

/-- `lr_edges`. -/
def lr_edges (c : Cube) : Int :=
  ib (decide (c.get (0, 3) ≠ 0)) + ib (decide (c.get (0, 7) ≠ 0))

/-- `lr_rows`. -/
def lr_rows (c : Cube) : Int :=
  4 - (ib (uniform_top c 0) + ib (uniform_bottom c 0) +
       ib (uniform_top c 1) + ib (uniform_bottom c 1))

/-- `g3b_fitness`. -/
def g3b_fitness (c : Cube) : Int :=
  5 * ud_tiles c + 15 * lr_edges c + 15 * lr_rows c

/-- `g3c_fitness`. -/
def g3c_fitness (c : Cube) : Int := 5 * miscolored_tiles c

/-- The fitness function list `fitness` from fitness.py. -/
def fitness : List (Cube → Int) :=
  [g0_fitness, g1a_fitness, g1b_fitness, g2_fitness, g3a_fitness, g3b_fitness,
   g3c_fitness]

/-- The 20-move history of tests.py. -/
def testMoves : List Nat :=
  [1, 5, 1, 9, 9, 8, 8, 12, 14, 15, 17, 12, 2, 3, 6, 5, 7, 7, 9, 10]

set_option maxRecDepth 4000 in
/-- Sanity anchor (tests.py): the compressed label sequence of the
20-move test history. -/
theorem tests_history_anchor :
    ((testMoves.foldl History.add ⟨[]⟩).get).1 =
      ["R'", "B2", "F2", "U", "L'", "R", "F", "R'", "B'"] := by decide

set_option maxRecDepth 4000 in
/-- Sanity anchor (tests.py): the seven fitness scores of the cube
reached by the 20-move test history. -/
theorem tests_fitness_anchor :
    (fitness.map (fun f => f (testMoves.foldl Cube.move cubeInit))) =
      [20, 90, 250, 49050, 615, 120, 195] := by decide

/-- `G0_MOVES` (constants.py): all 18 moves. -/
def G0_MOVES : List Nat := [0, 1, 2, 3, 4, 5, 6, 7, 8, 9, 10, 11, 12, 13, 14, 15, 16, 17]

/-- `G1_MOVES`. -/
def G1_MOVES : List Nat := [1, 4, 6, 7, 8, 9, 10, 11, 12, 13, 14, 15, 16, 17]

/-- `G2_MOVES`. -/
def G2_MOVES : List Nat := [1, 4, 7, 10, 12, 13, 14, 15, 16, 17]

/-- `G3A_MOVES`. -/
def G3A_MOVES : List Nat := [1, 4, 7, 10, 13, 16]

/-- `G3B_MOVES`. -/
def G3B_MOVES : List Nat := [7, 10, 13, 16]

/-- `G3C_MOVES`. -/
def G3C_MOVES : List Nat := [13, 16]

/-- `MOVE_CHOICES`: per-phase legal move subsets. -/
def MOVE_CHOICES : List (List Nat) :=
  [G0_MOVES, G1_MOVES, G1_MOVES, G2_MOVES, G3A_MOVES, G3B_MOVES, G3C_MOVES]

/-- `NUM_PHASES = len(MOVE_CHOICES)`. -/
def NUM_PHASES : Nat := MOVE_CHOICES.length

/-- `MAX_NUM_MOVES`: per-phase mutation-count ceilings. -/
def MAX_NUM_MOVES : List Nat := [8, 6, 14, 16, 10, 8, 2]

/-- `FITNESS_WEIGHT`. -/
def FITNESS_WEIGHT : Int := 10

/-- `SIZE_WEIGHT`. -/
def SIZE_WEIGHT : Int := 19

/-- `POP_SIZE`. -/
def POP_SIZE : Nat := 11700

/-- `NUM_SURVIVORS`. -/
def NUM_SURVIVORS : Nat := 390

/-- `NUM_SELECTIONS`. -/
def NUM_SELECTIONS : Nat := 100000

/-- The move-application loop of `mutate` (algorithm.py): apply the
given number of random phase-legal moves
(`cube.move(MOVE_CHOICES[phase][int(random() * NUM_MOVE_CHOICES[phase])])`),
threading the random-stream position. -/
def mutateMoves : Nat → Cube → Nat → (Nat → Nat) → Nat → Cube × Nat
  | 0, c, _, _, pos => (c, pos)
  | k + 1, c, phase, rng, pos =>
    let choices := MOVE_CHOICES.getD phase []
    let move_index := rng pos % choices.length
    mutateMoves k (c.move (choices.getD move_index 0)) phase rng (pos + 1)

/-- `mutate(cube, phase)`: a random number of random phase-legal moves
(`int(random() * (MAX_NUM_MOVES[phase] + 1))`, modelled as a stream
draw mod the bound), then recompute `fitness` and
`fitness_score = FITNESS_WEIGHT * fit + SIZE_WEIGHT * cube.size()`
(the `size()` call compresses the history in place). -/
def mutate (c : Cube) (phase : Nat) (rng : Nat → Nat) (pos : Nat) : Cube × Nat :=
  let num_moves := rng pos % (MAX_NUM_MOVES.getD phase 0 + 1)
  let r := mutateMoves num_moves c phase rng (pos + 1)
  let fit := (fitness.getD phase (fun _ => 0)) r.1
  let szr := r.1.size
  (((szr.2).set_fitness fit).set_fitness_score
      (.int (FITNESS_WEIGHT * fit + SIZE_WEIGHT * (szr.1 : Int))), r.2)

/-- The `for cube in population: mutate(cube, phase)` loop of
`next_generation`. -/
def mutateAll : List Cube → Nat → (Nat → Nat) → Nat → List Cube × Nat
  | [], _, _, pos => ([], pos)
  | c :: rest, phase, rng, pos =>
    let r := mutate c phase rng pos
    let r2 := mutateAll rest phase rng r.2
    (r.1 :: r2.1, r2.2)

/-- The sort key `lambda cube: cube.fitness_score` of
`population.sort`.  When `next_generation` sorts, every member has just
been mutated, so every `fitness_score` holds a number; the bound-method
case (see `Cube.get_fitness_score`) cannot reach this sort. -/
def scoreKey (c : Cube) : Int :=
  match c.fitness_score with
  | .int n => n
  | .sizeMethod => 0

/-- The population after `next_generation`'s mutation sweep and
`population.sort(key=lambda cube: cube.fitness_score)` (a stable
ascending sort, like Python's). -/
def sortedPop (population : List Cube) (phase : Nat) (rng : Nat → Nat)
    (pos : Nat) : List Cube :=
  ((mutateAll population phase rng pos).1).mergeSort
    (fun a b => decide (scoreKey a ≤ scoreKey b))

/-- The refill loop
`for i in range(NUM_SURVIVORS, POP_SIZE): population[i].copy(population[selector()])`
with the selector's cyclic cursor `self.index = (self.index + 1) %
NUM_SELECTIONS; return self.selections[self.index]` threaded
explicitly (`selections` is the precomputed buffer). -/
def refillLoop : Nat → Nat → List Cube → (Nat → Nat) → Nat → List Cube × Nat
  | 0, _, pop, _, selIdx => (pop, selIdx)
  | k + 1, i, pop, selections, selIdx =>
    let selIdx1 := (selIdx + 1) % NUM_SELECTIONS
    let chosen := pop.getD (selections selIdx1) cubeInit
    refillLoop k (i + 1) (pop.set i ((pop.getD i cubeInit).copy chosen))
      selections selIdx1

/-- `next_generation(population, phase, selector)` (algorithm.py):
mutate every member, sort ascending by `fitness_score`, set the gate
when all of the first `NUM_SURVIVORS` members have raw fitness 0, and
— unless the algorithm is done — refill `[NUM_SURVIVORS, POP_SIZE)`
with copies of selector-chosen survivors.  Returns the gate, the new
population, the selector cursor and the random-stream position. -/
def next_generation (population : List Cube) (phase : Nat)
    (selections : Nat → Nat) (selIdx : Nat) (rng : Nat → Nat) (pos : Nat) :
    Bool × List Cube × Nat × Nat :=
  let m := mutateAll population phase rng pos
  let sorted := sortedPop population phase rng pos
  let go := (List.range NUM_SURVIVORS).all
    (fun i => (sorted.getD i cubeInit).get_fitness == 0)
  if phase = NUM_PHASES - 1 ∧ go then (go, sorted, selIdx, m.2)
  else
    let r := refillLoop (POP_SIZE - NUM_SURVIVORS) NUM_SURVIVORS sorted
      selections selIdx
    (go, r.1, r.2, m.2)

/-- The scramble of the end-to-end test (tests.py). -/
def scrambleMoves : List String := ["L'", "U'", "D2", "U", "L'", "R2", "L2", "B"]

/-- The known solution of the end-to-end test (tests.py). -/
def solutionMoves : List String := ["B'", "L'", "R2", "D2", "L"]

set_option maxRecDepth 4000 in
/-- **C9.** End-to-end replay: starting from the solved cube and
applying, via `Cube.move`, the scramble followed by the known solution
(labels decoded through the `MOVES` encoding as in tests.py,
`MOVES.index(move)`), `is_solved` returns true. -/
theorem known_solution_replay :
    is_solved (((scrambleMoves ++ solutionMoves).map
      (fun lbl => MOVES.indexOf lbl)).foldl Cube.move cubeInit) = true := by
  decide

/-- **C2** (code bug in cube.py).  `get_fitness_score` is
`return self.size`: it returns the bound `size` method object, never
the stored numeric composite — although `__init__`'s documentation says
`self.fitness_score` holds the composite value by which cubes are
compared, and `next_generation` sorts by the attribute.  On a fresh
cube the stored score is the number 0 but the accessor returns the
method; consequently `copy` value-copies `fitness` but stores the other
cube's bound method into `fitness_score` instead of its number. -/
theorem get_fitness_score_returns_method :
    cubeInit.fitness_score = PyVal.int 0 ∧
    cubeInit.get_fitness_score = PyVal.sizeMethod ∧
    cubeInit.get_fitness_score ≠ cubeInit.fitness_score ∧
    (∀ c other : Cube, (c.copy other).fitness = other.fitness) ∧
    (∀ c other : Cube, (c.copy other).fitness_score = PyVal.sizeMethod) :=
  ⟨rfl, rfl, by decide, fun _ _ => rfl, fun _ _ => rfl⟩

/-- The loop `while self.size() < 100: self.move(int(random() * 18))`
of `Cube.scramble` (cube.py).  The random stream `rng` supplies the
draws — `int(random() * 18)` is a uniform draw in `[0, 18)`, modelled
as `rng n % 18` where `n` counts the moves applied so far — and the
loop carries explicit fuel, returning `none` if the fuel runs out
first.  On exit it returns the cube (whose history the final `size()`
call has compressed) and the total number of moves applied, which the
model exposes so that the pre-compression move count is observable. -/
def scrambleLoopF : Nat → Cube → (Nat → Nat) → Nat → Option (Cube × Nat)
  | 0, _, _, _ => none
  | fuel + 1, c, rng, n =>
    let p := c.size
    if p.1 < 100 then scrambleLoopF fuel (p.2.move (rng n % 18)) rng (n + 1)
    else some (p.2, n)

/-- `Cube.scramble`: reset to the solved state, run the loop, read the
generated sequence (`moves_made = self.get_history()`), clear the
history, and emit `moves_made` (printed in the source) together with
the number of moves applied. -/
def Cube.scramble (c : Cube) (rng : Nat → Nat) (fuel : Nat) :
    Option (Cube × List String × Nat) :=
  match scrambleLoopF fuel c.reset rng 0 with
  | none => none
  | some (c1, n) =>
    let p := c1.get_history
    some (p.2.clear_history, p.1, n)

/-- Compression never lengthens the chain. -/
theorem sizeLoop_le (l : List Nat) : (sizeLoop l).1.length ≤ l.length := by
  have H : ∀ n l, l.length ≤ n → (sizeLoop l).1.length ≤ l.length := by
    intro n
    induction n with
    | zero =>
      intro l hlen
      have hl : l = [] := List.eq_nil_of_length_eq_zero (Nat.le_zero.mp hlen)
      subst hl
      rw [sizeLoop_eq]
      simp [sizePass, sizePassF]
    | succ n ih =>
      intro l hlen
      rw [sizeLoop_eq]
      by_cases hz : (sizePass l).2 = 0
      · have hlt := (sizePass_spec l).1 hz
        rw [if_pos hz]
        exact le_trans (ih _ (by omega)) (by omega)
      · rw [if_neg hz, ((sizePass_spec l).2 hz).1]
  exact H l.length l le_rfl

/-- The emitted label list of `History.get` has exactly `size` entries. -/
theorem History.get_length (h : History) : ((h.get).1).length = (h.size).1 := by
  have hc := (History.size_spec h).1
  unfold History.get
  simp [hc]

/-- Invariant of the scramble loop: starting from a cube whose raw
chain holds at most 100 moves (initially it is empty), the loop exits
with a compressed history of exactly 100 moves. -/
theorem scrambleLoopF_spec :
    ∀ fuel (c : Cube) rng n c1 cnt, c.history.history.length ≤ 100 →
      scrambleLoopF fuel c rng n = some (c1, cnt) →
      c1.history.history.length = 100 ∧ (c1.size).1 = 100 := by
  intro fuel
  induction fuel with
  | zero =>
    intro c rng n c1 cnt _ h
    exact absurd h (by simp [scrambleLoopF])
  | succ fuel ih =>
    intro c rng n c1 cnt hinv h
    have hlen : ((c.size).2).history.history.length = (c.size).1 :=
      ((History.size_spec c.history).1).symm
    by_cases hlt : (c.size).1 < 100
    · have hstep : scrambleLoopF (fuel + 1) c rng n =
          scrambleLoopF fuel (((c.size).2).move (rng n % 18)) rng (n + 1) := by
        show (if (c.size).1 < 100 then _ else _) = _
        rw [if_pos hlt]
      rw [hstep] at h
      refine ih _ rng (n + 1) c1 cnt ?_ h
      show ((c.size).2.history.add _).history.length ≤ 100
      simp only [History.add, List.length_cons]
      omega
    · have hstep : scrambleLoopF (fuel + 1) c rng n = some ((c.size).2, n) := by
        show (if (c.size).1 < 100 then _ else _) = _
        rw [if_neg hlt]
      rw [hstep] at h
      simp only [Option.some.injEq, Prod.mk.injEq] at h
      obtain ⟨hc1, hcnt⟩ := h
      subst hc1
      have hle : (c.size).1 ≤ c.history.history.length := by
        show (if (sizeLoop c.history.history).1 = [] then 0
          else (sizeLoop c.history.history).2) ≤ _
        by_cases hr : (sizeLoop c.history.history).1 = []
        · simp [hr]
        · rw [if_neg hr]
          have := (sizeLoop_spec c.history.history).2.1
          have hlen2 := sizeLoop_le c.history.history
          rw [this]
          have : (sizeLoop c.history.history).1.length ≠ 0 := by
            simpa using fun hk => hr (List.length_eq_zero.mp hk)
          omega
      have h100 : (c.size).1 = 100 := by omega
      refine ⟨by rw [hlen, h100], ?_⟩
      show ((c.history.size).2).size.1 = 100
      rw [(History.size_spec c.history).2.2.2]
      exact h100

/-- **C7** (amended): `Cube.scramble` first resets to the solved state
(its result is independent of the cube it is called on), applies
uniformly random moves drawn from all 18 move ids until the
post-compression history length `self.size()` reaches exactly 100, and
on return leaves the cube's history empty (`size() == 0`), emitting the
compressed 100-move sequence. -/
theorem scramble_spec (c : Cube) (rng : Nat → Nat) (fuel : Nat) (c' : Cube)
    (labels : List String) (n : Nat)
    (h : c.scramble rng fuel = some (c', labels, n)) :
    c.scramble rng fuel = cubeInit.scramble rng fuel ∧
    labels.length = 100 ∧ c'.history = ⟨[]⟩ ∧ (c'.size).1 = 0 := by
  refine ⟨rfl, ?_⟩
  unfold Cube.scramble at h
  match hloop : scrambleLoopF fuel c.reset rng 0 with
  | none => rw [hloop] at h; exact absurd h (by simp)
  | some (c1, cnt) =>
    rw [hloop] at h
    simp only [Option.some.injEq, Prod.mk.injEq] at h
    obtain ⟨h1, h2, h3⟩ := h
    have hinv : (Cube.reset c).history.history.length ≤ 100 := by
      show ([] : List Nat).length ≤ 100
      simp
    obtain ⟨hlen, hsz⟩ := scrambleLoopF_spec fuel c.reset rng 0 c1 cnt hinv hloop
    refine ⟨?_, ?_, ?_⟩
    · rw [← h2]
      show ((c1.history.get).1).length = 100
      rw [History.get_length]
      exact hsz
    · rw [← h1]
      rfl
    · rw [← h1]
      rfl

/-- Random stream for the scramble counterexample: the first two draws
are `L, L'` (they cancel under compression), then alternating `L, F`
(never reducible). -/
def cexStream (n : Nat) : Nat := if n = 1 then 2 else if n % 2 = 0 then 0 else 6

set_option maxRecDepth 60000 in
/-- **C7** counterexample: with `cexStream` the scramble loop applies
102 moves, not 100 — the loop condition `self.size() < 100` measures
the post-compression length, so after the first two moves cancel, two
extra moves are needed; the claim that moves are applied until the
pre-compression (raw appended) history length reaches 100 is false on
the code. -/
theorem scramble_counts_compressed_not_raw :
    ((cubeInit.scramble cexStream 200).map (fun r => r.2.2)) = some 102 ∧
    (102 : Nat) ≠ 100 :=
  ⟨by decide, by decide⟩

/-- Random stream used by the witness: alternating `L, F`, never
reducible. -/
def altStream (n : Nat) : Nat := if n % 2 = 0 then 0 else 6

set_option maxRecDepth 60000 in
/-- Witness for `scramble_spec`: a terminating concrete run. -/
theorem scramble_spec_witness :
    (cubeInit.scramble altStream 150).map (fun r => r.2.1.length) = some 100 ∧
    (cubeInit.scramble altStream 150).map (fun r => (r.1.size).1) = some 0 := by
  obtain ⟨x, hx⟩ : ∃ x, cubeInit.scramble altStream 150 = some x := ⟨_, rfl⟩
  obtain ⟨c', labels, n⟩ := x
  have hs := scramble_spec cubeInit altStream 150 c' labels n hx
  rw [hx]
  constructor
  · show some labels.length = some 100
    exact congrArg some hs.2.1
  · show some ((c'.size).1) = some 0
    exact congrArg some hs.2.2.2

/-- `getD` after `set` at the same position. -/
theorem getD_set_self {l : List Cube} {i : Nat} {v d : Cube} (h : i < l.length) :
    (l.set i v).getD i d = v := by
  simp [List.getD_eq_getElem?_getD, List.getElem?_set, h]

/-- `getD` after `set` at a different position. -/
theorem getD_set_ne {l : List Cube} {i j : Nat} {v d : Cube} (h : i ≠ j) :
    (l.set i v).getD j d = l.getD j d := by
  simp [List.getD_eq_getElem?_getD, List.getElem?_set, h]

/-- `mutateAll` preserves the population length. -/
theorem mutateAll_length (population : List Cube) (phase : Nat)
    (rng : Nat → Nat) (pos : Nat) :
    (mutateAll population phase rng pos).1.length = population.length := by
  induction population generalizing pos with
  | nil => rfl
  | cons c rest ih =>
    show ((mutate c phase rng pos).1 ::
      (mutateAll rest phase rng (mutate c phase rng pos).2).1).length = _
    simp only [List.length_cons, ih]

/-- Characterization of the refill loop: positions below the write
window keep their values, and every position in the window receives a
copy of the survivor chosen by the corresponding selector draw. -/
theorem refillLoop_spec (selections : Nat → Nat)
    (hsel : ∀ k, selections k < NUM_SURVIVORS) :
    ∀ k i pop selIdx, pop.length = POP_SIZE → i + k = POP_SIZE →
      NUM_SURVIVORS ≤ i →
      (∀ j, j < i →
        (refillLoop k i pop selections selIdx).1.getD j cubeInit =
          pop.getD j cubeInit) ∧
      (∀ j, i ≤ j → j < POP_SIZE →
        (refillLoop k i pop selections selIdx).1.getD j cubeInit =
          (pop.getD j cubeInit).copy
            (pop.getD (selections ((selIdx + 1 + (j - i)) % NUM_SELECTIONS))
              cubeInit)) := by
  intro k
  induction k with
  | zero =>
    intro i pop selIdx hlen hik hns
    exact ⟨fun j _ => rfl, fun j hij hj => absurd hj (by omega)⟩
  | succ k ih =>
    intro i pop selIdx hlen hik hns
    have hstep : refillLoop (k + 1) i pop selections selIdx =
        refillLoop k (i + 1)
          (pop.set i ((pop.getD i cubeInit).copy
            (pop.getD (selections ((selIdx + 1) % NUM_SELECTIONS)) cubeInit)))
          selections ((selIdx + 1) % NUM_SELECTIONS) := rfl
    set pop1 := pop.set i ((pop.getD i cubeInit).copy
      (pop.getD (selections ((selIdx + 1) % NUM_SELECTIONS)) cubeInit)) with hpop1
    obtain ⟨ihlow, ihwin⟩ := ih (i + 1) pop1 ((selIdx + 1) % NUM_SELECTIONS)
      (by rw [hpop1, List.length_set]; exact hlen) (by omega) (by omega)
    rw [hstep]
    constructor
    · intro j hj
      rw [ihlow j (by omega), hpop1, getD_set_ne (by omega)]
    · intro j hij hj
      by_cases hji : j = i
      · subst hji
        rw [ihlow j (by omega), hpop1, getD_set_self (by omega)]
        simp
      · have hgt : i + 1 ≤ j := by omega
        rw [ihwin j hgt hj]
        have hsv : selections (((selIdx + 1) % NUM_SELECTIONS + 1 + (j - (i + 1)))
            % NUM_SELECTIONS) =
            selections ((selIdx + 1 + (j - i)) % NUM_SELECTIONS) := by
          have heq : ((selIdx + 1) % NUM_SELECTIONS + 1 + (j - (i + 1)))
              % NUM_SELECTIONS = (selIdx + 1 + (j - i)) % NUM_SELECTIONS := by
            rw [Nat.add_assoc, Nat.mod_add_mod]
            congr 1
            omega
          rw [heq]
        have hs1 : pop1.getD j cubeInit = pop.getD j cubeInit :=
          getD_set_ne (by omega)
        have hs2 : pop1.getD (selections (((selIdx + 1) % NUM_SELECTIONS + 1 +
            (j - (i + 1))) % NUM_SELECTIONS)) cubeInit =
            pop.getD (selections ((selIdx + 1 + (j - i)) % NUM_SELECTIONS))
              cubeInit := by
          rw [hsv]
          exact getD_set_ne (by
            have hb := hsel ((selIdx + 1 + (j - i)) % NUM_SELECTIONS)
            omega)
        rw [hs1, hs2]

set_option maxRecDepth 40000 in
/-- Core characterisation of `next_generation`, stated over an abstract
refill result `RF` so that no proof step ever needs to reduce
`refillLoop` at its concrete fuel. -/
theorem next_generation_key (population : List Cube) (phase : Nat)
    (selections : Nat → Nat) (selIdx : Nat) (rng : Nat → Nat) (pos : Nat)
    (hlen : population.length = POP_SIZE)
    (hsel : ∀ k, selections k < NUM_SURVIVORS)
    (RF : List Cube × Nat)
    (hRF : refillLoop (POP_SIZE - NUM_SURVIVORS) NUM_SURVIVORS
      (sortedPop population phase rng pos) selections selIdx = RF) :
    ((next_generation population phase selections selIdx rng pos).1 = true ↔
      ∀ i, i < NUM_SURVIVORS →
        ((sortedPop population phase rng pos).getD i cubeInit).fitness = 0) ∧
    (sortedPop population phase rng pos).Perm
      (mutateAll population phase rng pos).1 ∧
    List.Pairwise (fun a b => scoreKey a ≤ scoreKey b)
      (sortedPop population phase rng pos) ∧
    (∀ i, i < NUM_SURVIVORS →
      (next_generation population phase selections selIdx rng pos).2.1.getD i
          cubeInit =
        (sortedPop population phase rng pos).getD i cubeInit) ∧
    (¬(phase = NUM_PHASES - 1 ∧
        (next_generation population phase selections selIdx rng pos).1 = true) →
      ∀ i, NUM_SURVIVORS ≤ i → i < POP_SIZE →
        selections ((selIdx + 1 + (i - NUM_SURVIVORS)) % NUM_SELECTIONS) <
          NUM_SURVIVORS ∧
        (next_generation population phase selections selIdx rng pos).2.1.getD i
            cubeInit =
          ((sortedPop population phase rng pos).getD i cubeInit).copy
            ((sortedPop population phase rng pos).getD
              (selections ((selIdx + 1 + (i - NUM_SURVIVORS)) % NUM_SELECTIONS))
              cubeInit)) := by
  have hslen : (sortedPop population phase rng pos).length = POP_SIZE := by
    unfold sortedPop
    rw [List.length_mergeSort, mutateAll_length, hlen]
  have hsurv : NUM_SURVIVORS ≤ POP_SIZE := by
    unfold NUM_SURVIVORS POP_SIZE
    omega
  have hng : next_generation population phase selections selIdx rng pos =
      if phase = NUM_PHASES - 1 ∧ ((List.range NUM_SURVIVORS).all
          (fun i => ((sortedPop population phase rng pos).getD i cubeInit).get_fitness
            == 0)) then
        ((List.range NUM_SURVIVORS).all
          (fun i => ((sortedPop population phase rng pos).getD i cubeInit).get_fitness
            == 0), sortedPop population phase rng pos, selIdx,
         (mutateAll population phase rng pos).2)
      else
        ((List.range NUM_SURVIVORS).all
          (fun i => ((sortedPop population phase rng pos).getD i cubeInit).get_fitness
            == 0), RF.1, RF.2,
         (mutateAll population phase rng pos).2) := by
    rw [← hRF]
    rfl
  have hr1 : (next_generation population phase selections selIdx rng pos).1 =
      ((List.range NUM_SURVIVORS).all
        (fun i => ((sortedPop population phase rng pos).getD i cubeInit).get_fitness
          == 0)) := by
    rw [hng]
    split <;> rfl
  refine ⟨?_, ?_, ?_, ?_, ?_⟩
  · rw [hr1]
    simp only [List.all_eq_true, List.mem_range, beq_iff_eq]
    rfl
  · unfold sortedPop
    exact List.mergeSort_perm _ _
  · have hs := @List.sorted_mergeSort Cube
      (fun (a b : Cube) => decide (scoreKey a ≤ scoreKey b))
      (fun a b c hab hbc => by
        simp only [decide_eq_true_eq] at *
        omega)
      (fun a b => by
        rcases Int.le_total (scoreKey a) (scoreKey b) with h | h <;> simp [h])
      (mutateAll population phase rng pos).1
    exact hs.imp (fun h => of_decide_eq_true h)
  · intro i hi
    have hh := (refillLoop_spec selections hsel (POP_SIZE - NUM_SURVIVORS)
      NUM_SURVIVORS (sortedPop population phase rng pos) selIdx hslen
      (Nat.add_sub_cancel' hsurv) le_rfl).1 i hi
    rw [hRF] at hh
    rw [hng]
    split
    · rfl
    · exact hh
  · intro hnot i hlo hhi
    rw [hr1] at hnot
    have hbr : ¬(phase = NUM_PHASES - 1 ∧ ((List.range NUM_SURVIVORS).all
        (fun i => ((sortedPop population phase rng pos).getD i cubeInit).get_fitness
          == 0)) = true) := hnot
    refine ⟨hsel _, ?_⟩
    have hh := (refillLoop_spec selections hsel (POP_SIZE - NUM_SURVIVORS)
      NUM_SURVIVORS (sortedPop population phase rng pos) selIdx hslen
      (Nat.add_sub_cancel' hsurv) le_rfl).2 i hlo hhi
    rw [hRF] at hh
    rw [hng]
    split
    · rename_i hcond
      exact absurd ⟨hcond.1, hcond.2⟩ hbr
    · exact hh

/-- **C5.** `next_generation` mutates every member, sorts ascending by
`fitness_score`, reports success exactly when the first `NUM_SURVIVORS`
members of the sorted population all have raw fitness 0, keeps the
survivors in place, and (unless the final phase just succeeded) refits
every position in `[NUM_SURVIVORS, POP_SIZE)` with a copy of a
selector-chosen survivor, the selector cursor advancing cyclically. -/
theorem next_generation_gate_and_refill (population : List Cube) (phase : Nat)
    (selections : Nat → Nat) (selIdx : Nat) (rng : Nat → Nat) (pos : Nat)
    (hlen : population.length = POP_SIZE)
    (hsel : ∀ k, selections k < NUM_SURVIVORS) :
    ((next_generation population phase selections selIdx rng pos).1 = true ↔
      ∀ i, i < NUM_SURVIVORS →
        ((sortedPop population phase rng pos).getD i cubeInit).fitness = 0) ∧
    (sortedPop population phase rng pos).Perm
      (mutateAll population phase rng pos).1 ∧
    List.Pairwise (fun a b => scoreKey a ≤ scoreKey b)
      (sortedPop population phase rng pos) ∧
    (∀ i, i < NUM_SURVIVORS →
      (next_generation population phase selections selIdx rng pos).2.1.getD i
          cubeInit =
        (sortedPop population phase rng pos).getD i cubeInit) ∧
    (¬(phase = NUM_PHASES - 1 ∧
        (next_generation population phase selections selIdx rng pos).1 = true) →
      ∀ i, NUM_SURVIVORS ≤ i → i < POP_SIZE →
        selections ((selIdx + 1 + (i - NUM_SURVIVORS)) % NUM_SELECTIONS) <
          NUM_SURVIVORS ∧
        (next_generation population phase selections selIdx rng pos).2.1.getD i
            cubeInit =
          ((sortedPop population phase rng pos).getD i cubeInit).copy
            ((sortedPop population phase rng pos).getD
              (selections ((selIdx + 1 + (i - NUM_SURVIVORS)) % NUM_SELECTIONS))
              cubeInit)) :=
  next_generation_key population phase selections selIdx rng pos hlen hsel _ rfl

/-- Witness for `next_generation_gate_and_refill`: a uniform population
of `POP_SIZE` fresh cubes with the constant-0 selection stream satisfies
both hypotheses. -/
theorem next_generation_gate_and_refill_witness :
    (List.replicate POP_SIZE cubeInit).length = POP_SIZE ∧
    (∀ k : Nat, (fun _ : Nat => 0) k < NUM_SURVIVORS) ∧
    (((next_generation (List.replicate POP_SIZE cubeInit) 0 (fun _ => 0) 0
        (fun _ => 0) 0).1 = true ↔
      ∀ i, i < NUM_SURVIVORS →
        ((sortedPop (List.replicate POP_SIZE cubeInit) 0 (fun _ => 0) 0).getD i
          cubeInit).fitness = 0) ∧
    (sortedPop (List.replicate POP_SIZE cubeInit) 0 (fun _ => 0) 0).Perm
      (mutateAll (List.replicate POP_SIZE cubeInit) 0 (fun _ => 0) 0).1 ∧
    List.Pairwise (fun a b => scoreKey a ≤ scoreKey b)
      (sortedPop (List.replicate POP_SIZE cubeInit) 0 (fun _ => 0) 0) ∧
    (∀ i, i < NUM_SURVIVORS →
      (next_generation (List.replicate POP_SIZE cubeInit) 0 (fun _ => 0) 0
          (fun _ => 0) 0).2.1.getD i cubeInit =
        (sortedPop (List.replicate POP_SIZE cubeInit) 0 (fun _ => 0) 0).getD i
          cubeInit) ∧
    (¬(0 = NUM_PHASES - 1 ∧
        (next_generation (List.replicate POP_SIZE cubeInit) 0 (fun _ => 0) 0
          (fun _ => 0) 0).1 = true) →
      ∀ i, NUM_SURVIVORS ≤ i → i < POP_SIZE →
        (fun _ : Nat => 0) ((0 + 1 + (i - NUM_SURVIVORS)) % NUM_SELECTIONS) <
          NUM_SURVIVORS ∧
        (next_generation (List.replicate POP_SIZE cubeInit) 0 (fun _ => 0) 0
            (fun _ => 0) 0).2.1.getD i cubeInit =
          ((sortedPop (List.replicate POP_SIZE cubeInit) 0 (fun _ => 0) 0).getD
            i cubeInit).copy
            ((sortedPop (List.replicate POP_SIZE cubeInit) 0 (fun _ => 0)
              0).getD
              ((fun _ : Nat => 0)
                ((0 + 1 + (i - NUM_SURVIVORS)) % NUM_SELECTIONS))
              cubeInit))) :=
  ⟨by simp, fun _ => by show 0 < NUM_SURVIVORS; decide,
   next_generation_gate_and_refill (List.replicate POP_SIZE cubeInit) 0
     (fun _ => 0) 0 (fun _ => 0) 0 (by simp)
     (fun _ => by show 0 < NUM_SURVIVORS; decide)⟩

/-- **C3.** Compression reaches a fixed point and is idempotent: after
`History.size()` returns, the stored chain contains no two adjacent
moves that turn the same face and no compressible 3-move sandwich (same
face on both ends, opposite face — `id // 6` equal — in the middle);
consequently running `size()` or `get()` again performs no change and
returns the same count and the same label sequence. -/
theorem history_compression_idempotent (h : History) :
    noAdjacentSameFace (h.size).2.history ∧
    noSandwich (h.size).2.history ∧
    ((h.size).2).size = h.size ∧
    ((h.get).2).get = h.get := by
  obtain ⟨hc, h1, h2, hfix⟩ := History.size_spec h
  refine ⟨h1, h2, hfix, ?_⟩
  show ((h.size).2).get = h.get
  unfold History.get
  simp only [hfix]

/-- **C8.** Termination and counting of compression: every pass that
performs an edit strictly shortens the chain; a pass with zero edits
exits the loop immediately; `History.size` returns the number of moves
in the compressed chain; and it returns `(0, empty)` for an empty
history. -/
theorem history_size_terminates_and_counts :
    (∀ l : List Nat, (sizePass l).2 = 0 → (sizePass l).1.length < l.length) ∧
    (∀ l : List Nat, (sizePass l).2 ≠ 0 → sizeLoop l = sizePass l) ∧
    (∀ h : History, (h.size).1 = (h.size).2.history.length) ∧
    (History.mk []).size = (0, History.mk []) := by
  refine ⟨fun l => (sizePass_spec l).1, fun l hz => ?_,
    fun h => (History.size_spec h).1, rfl⟩
  rw [sizeLoop_eq, if_neg hz]

/-- Witness for `history_size_terminates_and_counts`: the chain `L L`
is shortened by an editing pass, and the pass on `L F` makes no edit so
the loop exits at once. -/
theorem history_size_terminates_and_counts_witness :
    ((sizePass [0, 0]).2 = 0 ∧ (sizePass [0, 0]).1.length < [0, 0].length) ∧
    ((sizePass [0, 6]).2 ≠ 0 ∧ sizeLoop [0, 6] = sizePass [0, 6]) :=
  ⟨⟨by decide, history_size_terminates_and_counts.1 [0, 0] (by decide)⟩,
   ⟨by decide, history_size_terminates_and_counts.2.1 [0, 6] (by decide)⟩⟩

/-- Helper closed form of the cumulative rank weights:
`sumTo p = NUM_SURVIVORS + (NUM_SURVIVORS - 1) + ... + (NUM_SURVIVORS - p)`. -/
def sumTo : Nat → Nat
  | 0 => NUM_SURVIVORS
  | p + 1 => sumTo p + (NUM_SURVIVORS - (p + 1))

/-- `Rank.__init__` (selectors.py): the raw weights
`self.fitnesses = [NUM_SURVIVORS - rank for rank in range(NUM_SURVIVORS)]`. -/
def rankFitnesses0 : List Nat :=
  (List.range NUM_SURVIVORS).map (fun rank => NUM_SURVIVORS - rank)

/-- The in-place accumulation
`for i in range(1, NUM_SURVIVORS): self.fitnesses[i] += self.fitnesses[i - 1]`,
as a fuel loop over the write index. -/
def cumLoop : Nat → Nat → List Nat → List Nat
  | 0, _, f => f
  | k + 1, i, f => cumLoop k (i + 1) (f.set i (f.getD i 0 + f.getD (i - 1) 0))

/-- The cumulative weight table held in `self.fitnesses` after
`Rank.__init__`. -/
def rankFitnesses : List Nat := cumLoop (NUM_SURVIVORS - 1) 1 rankFitnesses0

/-- `self.sum = self.fitnesses[i - 1]` — `i` is read after the
accumulation loop, where Python leaves it at its last value
`NUM_SURVIVORS - 1`, so the recorded total is
`fitnesses[NUM_SURVIVORS - 2]`, one weight short of the real total
`fitnesses[NUM_SURVIVORS - 1]`. -/
def rankSum : Nat := rankFitnesses.getD (NUM_SURVIVORS - 1 - 1) 0

/-- The scan of `Rank.select`:
`for i in range(NUM_SURVIVORS): if target < self.fitnesses[i]: return i`
(falling off the loop returns Python `None`, modelled as `none`). -/
def rankSelectLoop : Nat → Nat → Nat → Option Nat
  | 0, _, _ => none
  | k + 1, i, target =>
    if target < rankFitnesses.getD i 0 then some i
    else rankSelectLoop k (i + 1) target

/-- `Rank.select` on a draw `target = int(random() * self.sum)`. -/
def rankSelect (target : Nat) : Option Nat :=
  rankSelectLoop NUM_SURVIVORS 0 target

/-- The cursor of `Rank.__call__` / `Geometric.__call__`
(`self.index = (self.index + 1) % NUM_SELECTIONS`) iterated over `n`
successive calls. -/
def selectorIndex : Nat → Nat → Nat
  | idx, 0 => idx
  | idx, n + 1 => selectorIndex ((idx + 1) % NUM_SELECTIONS) n

/-- `getD` after `set` at the written position (Nat lists). -/
theorem natGetD_set_self {l : List Nat} {i : Nat} {v d : Nat}
    (h : i < l.length) : (l.set i v).getD i d = v := by
  simp [List.getD_eq_getElem?_getD, List.getElem?_set, h]

/-- `getD` after `set` at a different position (Nat lists). -/
theorem natGetD_set_ne {l : List Nat} {i j : Nat} {v d : Nat} (h : i ≠ j) :
    (l.set i v).getD j d = l.getD j d := by
  simp [List.getD_eq_getElem?_getD, List.getElem?_set, h]

/-- The raw weight table reads `NUM_SURVIVORS - j` at position `j`. -/
theorem rankFitnesses0_getD {j : Nat} (hj : j < NUM_SURVIVORS) :
    rankFitnesses0.getD j 0 = NUM_SURVIVORS - j := by
  unfold rankFitnesses0
  rw [List.getD_eq_getElem?_getD, List.getElem?_map, List.getElem?_range hj]
  rfl

/-- Length of the raw weight table. -/
theorem rankFitnesses0_length : rankFitnesses0.length = NUM_SURVIVORS := by
  unfold rankFitnesses0
  rw [List.length_map, List.length_range]

/-- `cumLoop` preserves the length of the table. -/
theorem cumLoop_length : ∀ k i f, (cumLoop k i f : List Nat).length = f.length := by
  intro k
  induction k with
  | zero => intro i f; rfl
  | succ k ih =>
    intro i f
    show (cumLoop k (i + 1) _).length = _
    rw [ih, List.length_set]

/-- Invariant of the accumulation loop: positions already passed hold
the partial sums, the rest still hold the raw weights; afterwards every
position holds its partial sum. -/
theorem cumLoop_spec : ∀ k i f, 1 ≤ i → i + k = f.length →
    (∀ j, j < i → f.getD j 0 = sumTo j) →
    (∀ j, i ≤ j → j < f.length → f.getD j 0 = NUM_SURVIVORS - j) →
    ∀ p, p < f.length → (cumLoop k i f).getD p 0 = sumTo p := by
  intro k
  induction k with
  | zero =>
    intro i f h1 hik hlow _ p hp
    exact hlow p (by omega)
  | succ k ih =>
    intro i f h1 hik hlow hhigh p hp
    have hilen : i < f.length := by omega
    have hv : (f.set i (f.getD i 0 + f.getD (i - 1) 0)).getD i 0 = sumTo i := by
      rw [natGetD_set_self hilen, hhigh i le_rfl hilen,
        hlow (i - 1) (by omega)]
      obtain ⟨i0, rfl⟩ : ∃ i0, i = i0 + 1 := ⟨i - 1, by omega⟩
      show NUM_SURVIVORS - (i0 + 1) + sumTo (i0 + 1 - 1) = sumTo (i0 + 1)
      rw [Nat.add_sub_cancel]
      show _ = sumTo i0 + (NUM_SURVIVORS - (i0 + 1))
      exact Nat.add_comm _ _
    show (cumLoop k (i + 1) _).getD p 0 = sumTo p
    refine ih (i + 1) _ (by omega) (by rw [List.length_set]; omega) ?_ ?_ p
      (by rw [List.length_set]; omega)
    · intro j hj
      rcases Nat.lt_or_ge j i with hji | hji
      · rw [natGetD_set_ne (by omega), hlow j hji]
      · have : j = i := by omega
        subst this
        exact hv
    · intro j hij hjl
      rw [natGetD_set_ne (by omega)]
      exact hhigh j (by omega) (by rw [List.length_set] at hjl; omega)

/-- The cumulative table holds the partial sums. -/
theorem rankFitnesses_getD {p : Nat} (hp : p < NUM_SURVIVORS) :
    rankFitnesses.getD p 0 = sumTo p := by
  have h390 : NUM_SURVIVORS = 390 := by decide
  refine cumLoop_spec (NUM_SURVIVORS - 1) 1 rankFitnesses0 le_rfl
    (by rw [rankFitnesses0_length]; omega) ?_ ?_ p
    (by rw [rankFitnesses0_length]; omega)
  · intro j hj
    have : j = 0 := by omega
    subst this
    rw [rankFitnesses0_getD (by omega)]
    rfl
  · intro j h1j hjl
    rw [rankFitnesses0_length] at hjl
    exact rankFitnesses0_getD hjl

/-- The partial sums are strictly increasing while ranks remain. -/
theorem sumTo_mono : ∀ b a, a < b → b < NUM_SURVIVORS → sumTo a < sumTo b := by
  have h390 : NUM_SURVIVORS = 390 := by decide
  intro b
  induction b with
  | zero => intro a ha _; omega
  | succ b ih =>
    intro a ha hb
    have hstep : sumTo b < sumTo (b + 1) := by
      show sumTo b < sumTo b + (NUM_SURVIVORS - (b + 1))
      omega
    rcases Nat.lt_or_ge a b with h | h
    · exact Nat.lt_trans (ih a h (by omega)) hstep
    · have : a = b := by omega
      subst this
      exact hstep

/-- First-match behaviour of the `Rank.select` scan: if some index in
the remaining window clears the target, the scan returns the first such
index. -/
theorem rankSelectLoop_found : ∀ k i target j, i ≤ j → j < i + k →
    target < rankFitnesses.getD j 0 →
    ∃ m, rankSelectLoop k i target = some m ∧ i ≤ m ∧ m ≤ j ∧
      target < rankFitnesses.getD m 0 ∧
      ∀ j2, i ≤ j2 → j2 < m → ¬(target < rankFitnesses.getD j2 0) := by
  intro k
  induction k with
  | zero => intro i target j hij hjk _; omega
  | succ k ih =>
    intro i target j hij hjk hlt
    by_cases hc : target < rankFitnesses.getD i 0
    · refine ⟨i, ?_, le_rfl, hij, hc, fun j2 h1 h2 => absurd (Nat.lt_of_lt_of_le h2 h1) (by omega)⟩
      show (if target < rankFitnesses.getD i 0 then some i else _) = some i
      rw [if_pos hc]
    · have hij2 : i + 1 ≤ j := by
        rcases Nat.eq_or_lt_of_le hij with h | h
        · subst h; exact absurd hlt hc
        · omega
      obtain ⟨m, hm, h1, h2, h3, h4⟩ := ih (i + 1) target j hij2 (by omega) hlt
      refine ⟨m, ?_, by omega, h2, h3, ?_⟩
      · show (if target < rankFitnesses.getD i 0 then some i else _) = some m
        rw [if_neg hc]
        exact hm
      · intro j2 ha hb
        rcases Nat.eq_or_lt_of_le ha with h | h
        · subst h; exact hc
        · exact h4 j2 h hb

/-- The cursor after `n` calls from any in-range start. -/
theorem selectorIndex_eq : ∀ n idx, idx < NUM_SELECTIONS →
    selectorIndex idx n = (idx + n) % NUM_SELECTIONS := by
  intro n
  induction n with
  | zero =>
    intro idx hidx
    show idx = (idx + 0) % NUM_SELECTIONS
    rw [Nat.add_zero, Nat.mod_eq_of_lt hidx]
  | succ n ih =>
    intro idx hidx
    show selectorIndex ((idx + 1) % NUM_SELECTIONS) n = _
    rw [ih _ (Nat.mod_lt _ (by decide)), Nat.mod_add_mod]
    have : idx + 1 + n = idx + (n + 1) := by omega
    rw [this]

set_option maxRecDepth 4000 in
/-- **C6.** The Rank selector table and scan: the recorded total
`self.sum` is `fitnesses[NUM_SURVIVORS - 2] = 76244`, one weight short
of the real total `fitnesses[NUM_SURVIVORS - 1] = 76245` because the
loop variable `i` is read after the accumulation loop; every admissible
draw (`target < self.sum`) selects some index, that index is always
strictly below `NUM_SURVIVORS - 1` — so the scan never falls through,
always lands in `[0, NUM_SURVIVORS)`, but the worst surviving rank is
never selected, refuting the claim that every rank is returned for some
draw; every better rank is reachable (witnessed by the draw
`fitnesses[r] - 1`); and the call cursor walks the `NUM_SELECTIONS`
buffer cyclically, returning to its start after exactly
`NUM_SELECTIONS` calls. -/
theorem rank_selector_spec :
    rankSum = 76244 ∧
    rankFitnesses.getD (NUM_SURVIVORS - 1) 0 = 76245 ∧
    (∀ target, target < rankSum →
      ∃ i, rankSelect target = some i ∧ i < NUM_SURVIVORS - 1) ∧
    (∀ r, r < NUM_SURVIVORS - 1 →
      ∃ target, target < rankSum ∧ rankSelect target = some r) ∧
    (∀ idx n, idx < NUM_SELECTIONS →
      selectorIndex idx n = (idx + n) % NUM_SELECTIONS) ∧
    (∀ idx, idx < NUM_SELECTIONS → selectorIndex idx NUM_SELECTIONS = idx) := by
  have h390 : NUM_SURVIVORS = 390 := by decide
  have hsum : rankSum = sumTo 388 := by
    show rankFitnesses.getD (NUM_SURVIVORS - 1 - 1) 0 = sumTo 388
    rw [rankFitnesses_getD (by omega)]
    rw [show NUM_SURVIVORS - 1 - 1 = 388 by omega]
  have h388 : sumTo 388 = 76244 := by decide
  have h389 : sumTo 389 = 76245 := by decide
  have hfit : ∀ p, p < NUM_SURVIVORS → rankFitnesses.getD p 0 = sumTo p :=
    fun p hp => rankFitnesses_getD hp
  refine ⟨by rw [hsum, h388], ?_, ?_, ?_, fun idx n h => selectorIndex_eq n idx h, ?_⟩
  · rw [hfit (NUM_SURVIVORS - 1) (by omega), show NUM_SURVIVORS - 1 = 389 by omega, h389]
  · intro target ht
    rw [hsum, h388] at ht
    obtain ⟨m, hm, _, hm388, _, _⟩ := rankSelectLoop_found NUM_SURVIVORS 0 target 388
      (by omega) (by omega) (by rw [hfit 388 (by omega), h388]; exact ht)
    exact ⟨m, hm, by omega⟩
  · intro r hr
    have hrlt : r < NUM_SURVIVORS := by omega
    have hpos : 0 < sumTo r := by
      rcases Nat.eq_zero_or_pos r with h | h
      · subst h; show 0 < NUM_SURVIVORS; omega
      · calc 0 < sumTo 0 := by show 0 < NUM_SURVIVORS; omega
          _ < sumTo r := sumTo_mono r 0 h hrlt
    refine ⟨sumTo r - 1, ?_, ?_⟩
    · rw [hsum]
      rcases Nat.lt_or_ge r 388 with h | h
      · have := sumTo_mono 388 r h (by omega)
        omega
      · have : r = 388 := by omega
        subst this
        omega
    · obtain ⟨m, hm, _, hmr, hlt, hfirst⟩ := rankSelectLoop_found NUM_SURVIVORS 0
        (sumTo r - 1) r (by omega) (by omega)
        (by rw [hfit r hrlt]; omega)
      have hmr2 : m = r := by
        by_contra hne
        have hmlt : m < r := by omega
        have := sumTo_mono r m hmlt hrlt
        rw [hfit m (by omega)] at hlt
        omega
      subst hmr2
      exact hm
  · intro idx hidx
    rw [selectorIndex_eq NUM_SELECTIONS idx hidx, Nat.add_mod_right,
      Nat.mod_eq_of_lt hidx]

/-- Witness for `rank_selector_spec`: the draw `target = 0` selects the
best rank (index 0), and a cursor starting at slot 0 returns to slot 0
after `NUM_SELECTIONS` calls. -/
theorem rank_selector_spec_witness :
    ((0 : Nat) < rankSum ∧
      ∃ i, rankSelect 0 = some i ∧ i < NUM_SURVIVORS - 1) ∧
    ((0 : Nat) < NUM_SELECTIONS ∧ selectorIndex 0 NUM_SELECTIONS = 0) :=
  ⟨⟨by rw [rank_selector_spec.1]; decide,
    rank_selector_spec.2.2.1 0 (by rw [rank_selector_spec.1]; decide)⟩,
   ⟨by decide, rank_selector_spec.2.2.2.2.2 0 (by decide)⟩⟩


/-- Phase 1 of `is_even` (validate.py): `for m in permutation:` checks
`0 <= m < n` (returning `False` on violation, modelled as `none`) and
sets `visited[m] = False`. -/
def markF : List Int → Nat → List (Option Bool) → Option (List (Option Bool))
  | [], _, vis => some vis
  | m :: rest, n, vis =>
    if 0 ≤ m ∧ m < (n : Int) then markF rest n (vis.set m.toNat (some false))
    else none

/-- The `while p != m:` cycle walk of `is_even`: flip the parity bit,
mark `visited[p] = True`, advance `p = permutation[p]`.  The Python
loop carries no fuel; the model's fuel is spent only on iterations, and
the analysis shows `n + 1` fuel always suffices, so `none` (fuel
exhaustion) is unreachable from `is_even`. -/
def walkF : Nat → List Int → Int → Int → Bool → List (Option Bool) →
    Option (Bool × List (Option Bool))
  | 0, _, _, _, _, _ => none
  | fuel + 1, perm, m, p, ev, vis =>
    if p = m then some (ev, vis)
    else walkF fuel perm m (perm.getD p.toNat 0) (!ev) (vis.set p.toNat (some true))

/-- The outer `for m in permutation:` loop of phase 2 of `is_even`:
walk the cycle of `m` unless `visited[m]` is already `True`. -/
def evenLoopF : List Int → List Int → Bool → List (Option Bool) →
    Option (Bool × List (Option Bool))
  | [], _, ev, vis => some (ev, vis)
  | m :: rest, perm, ev, vis =>
    if !((vis.getD m.toNat none).getD false) then
      match walkF (perm.length + 1) perm m (perm.getD m.toNat 0) ev vis with
      | none => none
      | some (ev2, vis2) => evenLoopF rest perm ev2 vis2
    else evenLoopF rest perm ev vis

/-- `is_even(permutation)` (validate.py): validate the entries and the
coverage of `0 .. n-1`, then count cycle-walk flips.  `some b` is the
Python return value; `none` marks the (unreachable) exhaustion of the
walk fuel. -/
def is_even (perm : List Int) : Option Bool :=
  match markF perm perm.length (List.replicate perm.length none) with
  | none => some false
  | some vis =>
    if vis.any (fun o => o.isNone) then some false
    else
      match evenLoopF perm perm true vis with
      | none => none
      | some (ev, _) => some ev

/-- The input is a listing of `0, 1, ..., n - 1`: every entry is in
range and every index occurs. -/
def permGood (l : List Int) : Prop :=
  (∀ m ∈ l, 0 ≤ m ∧ m < (l.length : Int)) ∧
  ∀ j, j < l.length → (j : Int) ∈ l

instance (l : List Int) : Decidable (permGood l) := by
  unfold permGood
  infer_instance

/-- Parity helper: apply `d` boolean flips. -/
def flipN (d : Nat) (ev : Bool) : Bool := if d % 2 = 0 then ev else !ev

theorem flipN_add (a b : Nat) (ev : Bool) :
    flipN (a + b) ev = flipN a (flipN b ev) := by
  unfold flipN
  rcases Nat.even_or_odd a with ha | ha <;> rcases Nat.even_or_odd b with hb | hb <;>
    simp only [Nat.even_iff, Nat.odd_iff] at ha hb <;>
    rw [show (a + b) % 2 = (a % 2 + b % 2) % 2 from Nat.add_mod a b 2, ha, hb] <;>
    simp

theorem flipN_true_iff (d : Nat) : flipN d true = true ↔ Even d := by
  unfold flipN
  rcases Nat.even_or_odd d with h | h <;>
    simp only [Nat.even_iff, Nat.odd_iff] at h <;> simp [h, Nat.even_iff]

theorem markF_length : ∀ l n vis vis2, markF l n vis = some vis2 →
    vis2.length = vis.length := by
  intro l
  induction l with
  | nil => intro n vis vis2 h; cases h; rfl
  | cons m rest ih =>
    intro n vis vis2 h
    unfold markF at h
    split at h
    · rw [ih n _ _ h, List.length_set]
    · cases h

theorem markF_none {l : List Int} (n : Nat) (vis : List (Option Bool))
    (h : ∃ m ∈ l, ¬(0 ≤ m ∧ m < (n : Int))) : markF l n vis = none := by
  induction l generalizing vis with
  | nil => obtain ⟨m, hm, _⟩ := h; cases hm
  | cons a rest ih =>
    unfold markF
    split
    · rename_i hgood
      obtain ⟨m, hm, hbad⟩ := h
      rcases List.mem_cons.mp hm with rfl | hm2
      · exact absurd hgood hbad
      · exact ih _ ⟨m, hm2, hbad⟩
    · rfl

theorem markF_some {l : List Int} (n : Nat) (vis : List (Option Bool))
    (hn : n ≤ vis.length)
    (h : ∀ m ∈ l, 0 ≤ m ∧ m < (n : Int)) :
    ∃ vis2, markF l n vis = some vis2 ∧
      ∀ q, vis2.getD q none =
        if ∃ m ∈ l, m.toNat = q then some false else vis.getD q none := by
  induction l generalizing vis with
  | nil =>
    refine ⟨vis, rfl, fun q => ?_⟩
    rw [if_neg]
    rintro ⟨m, hm, _⟩
    cases hm
  | cons a rest ih =>
    have ha := h a (List.mem_cons_self a rest)
    obtain ⟨vis2, hrun, hchar⟩ := ih (vis.set a.toNat (some false))
      (by rw [List.length_set]; exact hn)
      (fun m hm => h m (List.mem_cons_of_mem a hm))
    refine ⟨vis2, ?_, fun q => ?_⟩
    · unfold markF
      rw [if_pos ha]
      exact hrun
    · rw [hchar q]
      by_cases hrest : ∃ m ∈ rest, m.toNat = q
      · rw [if_pos hrest, if_pos]
        obtain ⟨m, hm, hq⟩ := hrest
        exact ⟨m, List.mem_cons_of_mem a hm, hq⟩
      · rw [if_neg hrest]
        by_cases hq : a.toNat = q
        · subst hq
          rw [if_pos ⟨a, List.mem_cons_self a rest, rfl⟩]
          rw [List.getD_eq_getElem?_getD, List.getElem?_set]
          have hl : a.toNat < vis.length := by
            have := ha.2
            omega
          simp [hl]
        · rw [if_neg]
          · rw [List.getD_eq_getElem?_getD, List.getD_eq_getElem?_getD,
              List.getElem?_set]
            simp [hq]
          · rintro ⟨m, hm, hmq⟩
            rcases List.mem_cons.mp hm with rfl | hm2
            · exact hq hmq
            · exact hrest ⟨m, hm2, hmq⟩

theorem period_exists {n : Nat} (σ : Equiv.Perm (Fin n)) (x : Fin n) :
    ∃ k, 0 < k ∧ (σ ^ k) x = x :=
  ⟨orderOf σ, orderOf_pos σ, by rw [pow_orderOf_eq_one]; rfl⟩

/-- Length of the cycle of `x` under `σ`: the least positive `k` with
`σ ^ k x = x`. -/
def permPeriod {n : Nat} (σ : Equiv.Perm (Fin n)) (x : Fin n) : Nat :=
  Nat.find (period_exists σ x)

theorem permPeriod_pos {n : Nat} (σ : Equiv.Perm (Fin n)) (x : Fin n) :
    0 < permPeriod σ x := (Nat.find_spec (period_exists σ x)).1

theorem permPeriod_apply {n : Nat} (σ : Equiv.Perm (Fin n)) (x : Fin n) :
    (σ ^ permPeriod σ x) x = x := (Nat.find_spec (period_exists σ x)).2

theorem permPeriod_min {n : Nat} (σ : Equiv.Perm (Fin n)) (x : Fin n)
    {j : Nat} (hj : 0 < j) (hlt : j < permPeriod σ x) : (σ ^ j) x ≠ x :=
  fun he => Nat.find_min (period_exists σ x) hlt ⟨hj, he⟩

theorem pow_add_period {n : Nat} (σ : Equiv.Perm (Fin n)) (x : Fin n)
    (a : Nat) : (σ ^ (a + permPeriod σ x)) x = (σ ^ a) x := by
  rw [pow_add, Equiv.Perm.mul_apply, permPeriod_apply]

theorem pow_mod_period {n : Nat} (σ : Equiv.Perm (Fin n)) (x : Fin n) :
    ∀ j, (σ ^ (j % permPeriod σ x)) x = (σ ^ j) x := by
  intro j
  induction j using Nat.strong_induction_on with
  | _ j ih =>
    by_cases h : j < permPeriod σ x
    · rw [Nat.mod_eq_of_lt h]
    · have hT := permPeriod_pos σ x
      have h2 : (σ ^ j) x = (σ ^ (j - permPeriod σ x)) x := by
        conv_lhs => rw [show j = (j - permPeriod σ x) + permPeriod σ x by omega]
        rw [pow_add_period]
      rw [Nat.mod_eq_sub_mod (by omega), h2]
      exact ih (j - permPeriod σ x) (by omega)

theorem pow_period_inj {n : Nat} (σ : Equiv.Perm (Fin n)) (x : Fin n) :
    ∀ a b, a < permPeriod σ x → b < permPeriod σ x →
      (σ ^ a) x = (σ ^ b) x → a = b := by
  have key : ∀ a b, a < b → b < permPeriod σ x →
      (σ ^ a) x = (σ ^ b) x → False := by
    intro a b hab hb he
    have h1 : b = a + (b - a) := by omega
    rw [h1, pow_add, Equiv.Perm.mul_apply] at he
    have h2 : (σ ^ (b - a)) x = x := (Equiv.injective (σ ^ a)) he.symm
    exact permPeriod_min σ x (by omega) (by omega) h2
  intro a b ha hb he
  rcases Nat.lt_trichotomy a b with h | h | h
  · exact absurd (key a b h hb he) not_false
  · exact h
  · exact absurd (key b a h ha he.symm) not_false

theorem permPeriod_le {n : Nat} (σ : Equiv.Perm (Fin n)) (x : Fin n) :
    permPeriod σ x ≤ n := by
  have hinj : Function.Injective
      (fun k : Fin (permPeriod σ x) => (σ ^ (k : Nat)) x) := by
    intro a b hab
    exact Fin.ext (pow_period_inj σ x a b a.isLt b.isLt hab)
  have := Fintype.card_le_of_injective _ hinj
  simpa using this

/-- The cycle of `x` under `σ` as a predicate. -/
def permOrbit {n : Nat} (σ : Equiv.Perm (Fin n)) (x : Fin n) (y : Fin n) :
    Prop := ∃ k, k < permPeriod σ x ∧ (σ ^ k) x = y

theorem permOrbit_self {n : Nat} (σ : Equiv.Perm (Fin n)) (x : Fin n) :
    permOrbit σ x x := ⟨0, permPeriod_pos σ x, by simp⟩

theorem permOrbit_apply {n : Nat} (σ : Equiv.Perm (Fin n)) (x y : Fin n)
    (h : permOrbit σ x y) : permOrbit σ x (σ y) := by
  obtain ⟨k, hk, rfl⟩ := h
  have : σ ((σ ^ k) x) = (σ ^ (k + 1)) x := by
    rw [pow_succ', Equiv.Perm.mul_apply]
  rw [this]
  refine ⟨(k + 1) % permPeriod σ x, Nat.mod_lt _ (permPeriod_pos σ x), ?_⟩
  exact pow_mod_period σ x (k + 1)

theorem permOrbit_pow {n : Nat} (σ : Equiv.Perm (Fin n)) (x y : Fin n)
    (j : Nat) (h : permOrbit σ x y) : permOrbit σ x ((σ ^ j) y) := by
  induction j with
  | zero => simpa using h
  | succ j ih =>
    have : (σ ^ (j + 1)) y = σ ((σ ^ j) y) := by
      rw [pow_succ', Equiv.Perm.mul_apply]
    rw [this]
    exact permOrbit_apply σ x _ ih

theorem permOrbit_back {n : Nat} (σ : Equiv.Perm (Fin n)) (x y : Fin n)
    (h : permOrbit σ x y) : ∃ j, (σ ^ j) y = x := by
  obtain ⟨k, hk, rfl⟩ := h
  refine ⟨permPeriod σ x - k, ?_⟩
  rw [← Equiv.Perm.mul_apply, ← pow_add]
  rw [show permPeriod σ x - k + k = permPeriod σ x by omega]
  exact permPeriod_apply σ x

theorem optGetD_set_self {l : List (Option Bool)} {i : Nat} {v d : Option Bool}
    (h : i < l.length) : (l.set i v).getD i d = v := by
  simp [List.getD_eq_getElem?_getD, List.getElem?_set, h]

theorem optGetD_set_ne {l : List (Option Bool)} {i j : Nat} {v d : Option Bool}
    (h : i ≠ j) : (l.set i v).getD j d = l.getD j d := by
  simp [List.getD_eq_getElem?_getD, List.getElem?_set, h]

theorem flipN_succ (d : Nat) (ev : Bool) : flipN (d + 1) ev = flipN d (!ev) := by
  have h1 : flipN 1 ev = !ev := by simp [flipN]
  rw [flipN_add d 1 ev, h1]

theorem walk_spec (l : List Int) (σ : Equiv.Perm (Fin l.length))
    (hσ : ∀ i : Fin l.length, l.getD ↑i 0 = ((σ i : Nat) : Int))
    (m : Fin l.length) :
    ∀ d j ev vis fuel, 1 ≤ j → j + d = permPeriod σ m → d < fuel →
      vis.length = l.length →
      ∃ vis2,
        walkF fuel l ((↑m : Nat) : Int) ((↑((σ ^ j) m) : Nat) : Int) ev vis =
          some (flipN d ev, vis2) ∧
        vis2.length = l.length ∧
        (∀ q, (∃ k, j ≤ k ∧ k < permPeriod σ m ∧ (↑((σ ^ k) m) : Nat) = q) →
          vis2.getD q none = some true) ∧
        (∀ q, (∀ k, j ≤ k → k < permPeriod σ m → (↑((σ ^ k) m) : Nat) ≠ q) →
          vis2.getD q none = vis.getD q none) := by
  intro d
  induction d with
  | zero =>
    intro j ev vis fuel h1 hjd hfuel hlen
    have hj : j = permPeriod σ m := by omega
    subst hj
    cases fuel with
    | zero => omega
    | succ f =>
      refine ⟨vis, ?_, hlen, fun q hex => ?_, fun q _ => rfl⟩
      · show (if ((↑((σ ^ permPeriod σ m) m) : Nat) : Int) = ((↑m : Nat) : Int)
            then _ else _) = _
        rw [permPeriod_apply σ m, if_pos rfl]
        have h0 : flipN 0 ev = ev := by simp [flipN]
        rw [h0]
      · obtain ⟨k, hk1, hk2, _⟩ := hex
        omega
  | succ d ih =>
    intro j ev vis fuel h1 hjd hfuel hlen
    have hjT : j < permPeriod σ m := by omega
    have hne : ((↑((σ ^ j) m) : Nat) : Int) ≠ ((↑m : Nat) : Int) := by
      intro he
      have hv : ((σ ^ j) m : Nat) = (m : Nat) := Int.ofNat.inj he
      exact permPeriod_min σ m (by omega) hjT (Fin.ext hv)
    cases fuel with
    | zero => omega
    | succ f =>
      have hpos : ((↑((σ ^ j) m) : Nat) : Int).toNat = ((σ ^ j) m : Nat) :=
        Int.toNat_natCast _
      have hnext : l.getD ((↑((σ ^ j) m) : Nat) : Int).toNat 0 =
          ((↑((σ ^ (j + 1)) m) : Nat) : Int) := by
        rw [hpos, hσ ((σ ^ j) m)]
        have hss : σ ((σ ^ j) m) = (σ ^ (j + 1)) m := by
          rw [pow_succ', Equiv.Perm.mul_apply]
        rw [hss]
      obtain ⟨vis2, hrun, hlen2, hpos2, hneg2⟩ := ih (j + 1) (!ev)
        (vis.set ((σ ^ j) m : Nat) (some true)) f (by omega) (by omega)
        (by omega) (by rw [List.length_set]; exact hlen)
      refine ⟨vis2, ?_, hlen2, fun q hex => ?_, fun q hall => ?_⟩
      · show (if ((↑((σ ^ j) m) : Nat) : Int) = ((↑m : Nat) : Int)
            then _ else _) = _
        rw [if_neg hne, hnext, hpos, hrun, flipN_succ]
      · rcases Classical.em (∃ k, j + 1 ≤ k ∧ k < permPeriod σ m ∧
            (↑((σ ^ k) m) : Nat) = q) with h | h
        · exact hpos2 q h
        · obtain ⟨k, hk1, hk2, hk3⟩ := hex
          have hkj : k = j := by
            by_contra hkj
            exact h ⟨k, by omega, hk2, hk3⟩
          subst hkj
          subst hk3
          rw [hneg2 _ (fun k' hk1' hk2' hq' => h ⟨k', hk1', hk2', hq'⟩)]
          exact optGetD_set_self (by rw [hlen]; exact ((σ ^ k) m).isLt)
      · have hq : ((σ ^ j) m : Nat) ≠ q := hall j le_rfl hjT
        rw [hneg2 q (fun k hk1 hk2 => hall k (by omega) hk2),
          optGetD_set_ne hq]

theorem evenLoop_spec (l : List Int) (σ : Equiv.Perm (Fin l.length))
    (hσ : ∀ i : Fin l.length, l.getD ↑i 0 = ((σ i : Nat) : Int))
    (hnodup : l.Nodup)
    (hrange : ∀ v ∈ l, 0 ≤ v ∧ v < (l.length : Int)) :
    ∀ rest done ev vis (W : Fin l.length → Prop)
      (sw : List (Equiv.Perm (Fin l.length))),
      l = done ++ rest →
      vis.length = l.length →
      (∀ q : Fin l.length, vis.getD ↑q none = some true ∨
        vis.getD ↑q none = some false) →
      (∀ q : Fin l.length, vis.getD ↑q none = some true → W q) →
      (∀ q : Fin l.length, W q → vis.getD ↑q none = some false →
        ((↑q : Nat) : Int) ∈ done) →
      (∀ q : Fin l.length, W q → W (σ q)) →
      (∀ q : Fin l.length, ¬ W q → ((↑q : Nat) : Int) ∈ rest) →
      (∀ g ∈ sw, Equiv.Perm.IsSwap g) →
      (∀ q : Fin l.length, W q → sw.prod q = σ q) →
      (∀ q : Fin l.length, ¬ W q → sw.prod q = q) →
      ev = flipN sw.length true →
      ∃ sw2 vis2, (∀ g ∈ sw2, Equiv.Perm.IsSwap g) ∧
        List.prod sw2 = σ ∧
        evenLoopF rest l ev vis = some (flipN sw2.length true, vis2) := by
  intro rest
  induction rest with
  | nil =>
    intro done ev vis W sw hsplit hlen hentries hmW hWdone hWinv hcov hsw
      hprodW hprodN hev
    refine ⟨sw, vis, hsw, ?_, ?_⟩
    · apply Equiv.ext
      intro x
      have hWx : W x := by
        by_contra h
        exact absurd (hcov x h) (List.not_mem_nil _)
      exact hprodW x hWx
    · show some (ev, vis) = some (flipN sw.length true, vis)
      rw [hev]
  | cons mv rest2 ih =>
    intro done ev vis W sw hsplit hlen hentries hmW hWdone hWinv hcov hsw
      hprodW hprodN hev
    have hmvl : mv ∈ l := by
      rw [hsplit]
      exact List.mem_append_right _ (List.mem_cons_self _ _)
    have hmvr := hrange mv hmvl
    have hbound : mv.toNat < l.length := by omega
    have hsplit2 : l = (done ++ [mv]) ++ rest2 := by
      rw [List.append_assoc, List.singleton_append]
      exact hsplit
    rcases hentries ⟨mv.toNat, hbound⟩ with hmark | hunmark
    · -- visited[m] is True: skip this element
      have hcond : (!((vis.getD mv.toNat none).getD false)) = false := by
        have hmval : ((⟨mv.toNat, hbound⟩ : Fin l.length) : Nat) = mv.toNat := rfl
        rw [← hmval, hmark]
        rfl
      have hstep : evenLoopF (mv :: rest2) l ev vis =
          evenLoopF rest2 l ev vis := by
        show (if (!((vis.getD mv.toNat none).getD false)) = true then _ else _) = _
        rw [hcond]
        simp
      rw [hstep]
      refine ih (done ++ [mv]) ev vis W sw hsplit2 hlen hentries hmW ?_ hWinv
        ?_ hsw hprodW hprodN hev
      · intro q hq hfq
        exact List.mem_append_left _ (hWdone q hq hfq)
      · intro q hq
        rcases List.mem_cons.mp (hcov q hq) with he | hr
        · exfalso
          have hqm : q = ⟨mv.toNat, hbound⟩ := by
            apply Fin.ext
            show (q : Nat) = mv.toNat
            omega
          exact hq (hqm ▸ hmW _ hmark)
        · exact hr
    · -- visited[m] is False: walk the cycle of m
      have hmval : ((⟨mv.toNat, hbound⟩ : Fin l.length) : Nat) = mv.toNat := rfl
      have hmv : ((↑(⟨mv.toNat, hbound⟩ : Fin l.length) : Nat) : Int) = mv := by
        rw [hmval]
        exact Int.toNat_of_nonneg hmvr.1
      have hWm : ¬ W ⟨mv.toNat, hbound⟩ := by
        intro hW
        have hmem := hWdone _ hW hunmark
        rw [hmv] at hmem
        have hdisj := List.disjoint_of_nodup_append (hsplit ▸ hnodup)
        exact hdisj hmem (List.mem_cons_self _ _)
      have hTpos := permPeriod_pos σ ⟨mv.toNat, hbound⟩
      have hTle := permPeriod_le σ ⟨mv.toNat, hbound⟩
      obtain ⟨vis2, hwalk, hlen2, hpos2, hneg2⟩ := walk_spec l σ hσ
        ⟨mv.toNat, hbound⟩ (permPeriod σ ⟨mv.toNat, hbound⟩ - 1) 1 ev vis
        (l.length + 1) le_rfl (by omega) (by omega) hlen
      have hcond : (!((vis.getD mv.toNat none).getD false)) = true := by
        rw [← hmval, hunmark]
        rfl
      have hgetm : l.getD mv.toNat 0 =
          ((↑((σ ^ 1) ⟨mv.toNat, hbound⟩) : Nat) : Int) := by
        rw [pow_one]
        exact hσ ⟨mv.toNat, hbound⟩
      have hstep : evenLoopF (mv :: rest2) l ev vis =
          evenLoopF rest2 l
            (flipN (permPeriod σ ⟨mv.toNat, hbound⟩ - 1) ev) vis2 := by
        rw [hmv] at hwalk
        simp only [evenLoopF]
        rw [hcond, if_pos rfl, hgetm, hwalk]
      rw [hstep]
      set m2 : Fin l.length := ⟨mv.toNat, hbound⟩ with hm2
      set T : Nat := permPeriod σ m2 with hT
      set ol : List (Fin l.length) :=
        (List.range T).map (fun k => (σ ^ k) m2) with holdef
      have hWpow : ∀ j (q : Fin l.length), W q → W ((σ ^ j) q) := by
        intro j
        induction j with
        | zero => intro q h; simpa using h
        | succ j ihj =>
          intro q h
          have h2 := ihj (σ q) (hWinv q h)
          rw [show (σ ^ (j + 1)) q = (σ ^ j) (σ q) by
            rw [pow_succ, Equiv.Perm.mul_apply]]
          exact h2
      have horbW : ∀ x, permOrbit σ m2 x → ¬ W x := by
        intro x horb hWx
        obtain ⟨j2, hj2⟩ := permOrbit_back σ m2 x horb
        exact hWm (hj2 ▸ hWpow j2 x hWx)
      have hollen : ol.length = T := by
        rw [holdef, List.length_map, List.length_range]
      have holget : ∀ i, i < ol.length → ol.getD i m2 = (σ ^ i) m2 := by
        intro i hi
        rw [holdef] at hi ⊢
        rw [List.getD_eq_getElem?_getD, List.getElem?_map]
        rw [List.length_map, List.length_range] at hi
        rw [List.getElem?_range hi]
        rfl
      have holnodup : ol.Nodup := by
        rw [holdef]
        refine List.Nodup.map_on ?_ (List.nodup_range T)
        intro x hx y hy hxy
        rw [List.mem_range] at hx hy
        exact pow_period_inj σ m2 x y hx hy hxy
      have holmem : ∀ x, x ∈ ol ↔ permOrbit σ m2 x := by
        intro x
        constructor
        · intro hx
          rw [List.mem_iff_getElem] at hx
          obtain ⟨i, hi, heq⟩ := hx
          refine ⟨i, by omega, ?_⟩
          rw [← heq, ← holget i hi]
          exact List.getD_eq_getElem ol m2 hi
        · rintro ⟨k, hk, rfl⟩
          have hk2 : k < ol.length := by omega
          rw [List.mem_iff_getElem]
          refine ⟨k, hk2, ?_⟩
          rw [← holget k hk2]
          exact (List.getD_eq_getElem ol m2 hk2).symm
      have holgetE : ∀ i, ∀ hi : i < ol.length, ol.get ⟨i, hi⟩ = (σ ^ i) m2 := by
        intro i hi
        rw [← holget i hi, List.get_eq_getElem]
        exact (List.getD_eq_getElem ol m2 hi).symm
      have hformact : ∀ x, permOrbit σ m2 x → List.formPerm ol x = σ x := by
        rintro x ⟨k, hk, rfl⟩
        have hk2 : k < ol.length := by omega
        have hb2 : (k + 1) % ol.length < ol.length := Nat.mod_lt _ (by omega)
        have h1 : List.formPerm ol (ol.get ⟨k, hk2⟩) =
            ol.get ⟨(k + 1) % ol.length, hb2⟩ := by
          rw [List.get_eq_getElem, List.get_eq_getElem]
          exact List.formPerm_apply_getElem ol holnodup k hk2
        rw [holgetE k hk2] at h1
        rw [h1, holgetE _ hb2, hollen, hT, pow_mod_period σ m2 (k + 1),
          pow_succ', Equiv.Perm.mul_apply]
      have hformfix : ∀ x, ¬ permOrbit σ m2 x → List.formPerm ol x = x := by
        intro x hx
        exact List.formPerm_apply_of_not_mem (fun hmem => hx ((holmem x).mp hmem))
      set zs : List (Equiv.Perm (Fin l.length)) :=
        List.zipWith Equiv.swap ol ol.tail with hzs
      have hzswap : ∀ g ∈ zs, Equiv.Perm.IsSwap g := by
        intro g hg
        rw [hzs, List.mem_iff_getElem] at hg
        obtain ⟨i, hi, hgeq⟩ := hg
        rw [List.length_zipWith, List.length_tail] at hi
        obtain ⟨hia, hib⟩ := Nat.lt_min.mp hi
        have hib2 : i + 1 < ol.length := by omega
        rw [List.getElem_zipWith, List.getElem_tail] at hgeq
        refine ⟨ol.get ⟨i, hia⟩, ol.get ⟨i + 1, hib2⟩, ?_, ?_⟩
        · intro he
          rw [holgetE i hia, holgetE (i + 1) hib2] at he
          have := pow_period_inj σ m2 i (i + 1) (by omega) (by omega) he
          omega
        · rw [List.get_eq_getElem, List.get_eq_getElem]
          exact hgeq.symm
      have hziplen : zs.length = T - 1 := by
        rw [hzs, List.length_zipWith, List.length_tail, hollen]
        exact min_eq_right (by omega)
      have hform : zs.prod = List.formPerm ol := by rw [hzs]; rfl
      refine ih (done ++ [mv]) _ vis2 (fun x => W x ∨ permOrbit σ m2 x)
        (zs ++ sw) hsplit2 hlen2 ?_ ?_ ?_ ?_ ?_ ?_ ?_ ?_ ?_
      · intro q
        rcases Classical.em (∃ k, 1 ≤ k ∧ k < T ∧
            (((σ ^ k) m2 : Fin l.length) : Nat) = ↑q) with h | h
        · exact Or.inl (hpos2 ↑q h)
        · rw [hneg2 ↑q (fun k hk1 hk2 hkq => h ⟨k, hk1, hk2, hkq⟩)]
          exact hentries q
      · intro q hq
        rcases Classical.em (∃ k, 1 ≤ k ∧ k < T ∧
            (((σ ^ k) m2 : Fin l.length) : Nat) = ↑q) with h | h
        · right
          obtain ⟨k, hk1, hk2, hk3⟩ := h
          exact ⟨k, hk2, Fin.ext hk3⟩
        · rw [hneg2 ↑q (fun k hk1 hk2 hkq => h ⟨k, hk1, hk2, hkq⟩)] at hq
          exact Or.inl (hmW q hq)
      · intro q hq hfq
        have hnotnew : ¬ ∃ k, 1 ≤ k ∧ k < T ∧
            (((σ ^ k) m2 : Fin l.length) : Nat) = ↑q := by
          intro h
          rw [hpos2 ↑q h] at hfq
          simp at hfq
        rw [hneg2 ↑q (fun k hk1 hk2 hkq => hnotnew ⟨k, hk1, hk2, hkq⟩)] at hfq
        rcases hq with hW | horb
        · exact List.mem_append_left _ (hWdone q hW hfq)
        · obtain ⟨k, hk, hkeq⟩ := horb
          have hk0 : k = 0 := by
            by_contra hk0
            exact hnotnew ⟨k, by omega, hk, by rw [hkeq]⟩
          subst hk0
          have hqm : q = m2 := by rw [← hkeq]; simp
          rw [hqm, hmv]
          exact List.mem_append_right _ (List.mem_cons_self _ _)
      · rintro q (hW | horb)
        · exact Or.inl (hWinv q hW)
        · exact Or.inr (permOrbit_apply σ m2 q horb)
      · intro q hq
        have h1 : ¬ W q := fun h => hq (Or.inl h)
        rcases List.mem_cons.mp (hcov q h1) with he | hr
        · exfalso
          apply hq
          right
          have hqm : q = m2 := by
            apply Fin.ext
            show (q : Nat) = mv.toNat
            omega
          rw [hqm]
          exact permOrbit_self σ m2
        · exact hr
      · intro g hg
        rcases List.mem_append.mp hg with h | h
        · exact hzswap g h
        · exact hsw g h
      · rintro q (hW | horb)
        · rw [List.prod_append, Equiv.Perm.mul_apply, hprodW q hW, hform]
          exact hformfix (σ q) (fun horb2 => horbW _ horb2 (hWinv q hW))
        · rw [List.prod_append, Equiv.Perm.mul_apply, hprodN q (horbW q horb),
            hform]
          exact hformact q horb
      · intro q hq
        have h1 : ¬ W q := fun h => hq (Or.inl h)
        have h2 : ¬ permOrbit σ m2 q := fun h => hq (Or.inr h)
        rw [List.prod_append, Equiv.Perm.mul_apply, hprodN q h1, hform]
        exact hformfix q h2
      · rw [hev, List.length_append, hziplen, ← flipN_add]

theorem permGood_nodup {l : List Int} (h : permGood l) : l.Nodup := by
  have hinj : Function.Injective (fun j : Fin l.length => ((j : Nat) : Int)) := by
    intro a b hab
    exact Fin.ext (Int.ofNat.inj hab)
  have hsub : (Finset.image (fun j : Fin l.length => ((j : Nat) : Int))
      Finset.univ) ⊆ l.toFinset := by
    intro x hx
    rw [Finset.mem_image] at hx
    obtain ⟨j, _, rfl⟩ := hx
    rw [List.mem_toFinset]
    exact h.2 ↑j j.isLt
  have hcard : l.length ≤ l.toFinset.card := by
    have h1 := Finset.card_le_card hsub
    rw [Finset.card_image_of_injective _ hinj, Finset.card_univ,
      Fintype.card_fin] at h1
    exact h1
  rw [List.card_toFinset] at hcard
  have hdlen : l.dedup.length = l.length :=
    Nat.le_antisymm ((List.dedup_sublist l).length_le) hcard
  rw [← (List.dedup_sublist l).eq_of_length hdlen]
  exact l.nodup_dedup

theorem permGood_equiv {l : List Int} (h : permGood l) :
    ∃ σ : Equiv.Perm (Fin l.length),
      ∀ i : Fin l.length, l.getD ↑i 0 = ((σ i : Nat) : Int) := by
  have hval : ∀ i : Fin l.length,
      0 ≤ l.getD ↑i 0 ∧ (l.getD ↑i 0).toNat < l.length := by
    intro i
    have hmem : l.getD ↑i 0 ∈ l := by
      rw [List.getD_eq_getElem l 0 i.isLt]
      exact List.getElem_mem _
    have h2 := h.1 _ hmem
    constructor
    · exact h2.1
    · omega
  have hsurj : Function.Surjective
      (fun i : Fin l.length => (⟨(l.getD ↑i 0).toNat, (hval i).2⟩ :
        Fin l.length)) := by
    intro j
    have hjmem := h.2 ↑j j.isLt
    rw [List.mem_iff_getElem] at hjmem
    obtain ⟨i, hi, hieq⟩ := hjmem
    refine ⟨⟨i, hi⟩, ?_⟩
    apply Fin.ext
    show (l.getD ↑(⟨i, hi⟩ : Fin l.length) 0).toNat = ↑j
    rw [List.getD_eq_getElem l 0 (show ((⟨i, hi⟩ : Fin l.length) : Nat) <
      l.length from hi)]
    show (l[i]).toNat = ↑j
    rw [hieq]
    exact Int.toNat_natCast _
  have hbij := Finite.surjective_iff_bijective.mp hsurj
  refine ⟨Equiv.ofBijective _ hbij, fun i => ?_⟩
  show l.getD ↑i 0 =
    (((⟨(l.getD ↑i 0).toNat, (hval i).2⟩ : Fin l.length) : Nat) : Int)
  show l.getD ↑i 0 = ((l.getD ↑i 0).toNat : Int)
  exact (Int.toNat_of_nonneg (hval i).1).symm

theorem is_even_eq_of_mark_some {l : List Int} {vis0 : List (Option Bool)}
    (h : markF l l.length (List.replicate l.length none) = some vis0) :
    is_even l = if vis0.any (fun o => o.isNone) then some false
      else match evenLoopF l l true vis0 with
        | none => none
        | some (ev, _) => some ev := by
  unfold is_even
  rw [h]

theorem is_even_eq_of_mark_none {l : List Int}
    (h : markF l l.length (List.replicate l.length none) = none) :
    is_even l = some false := by
  unfold is_even
  rw [h]

theorem is_even_run {l : List Int} (hg : permGood l)
    (σ : Equiv.Perm (Fin l.length))
    (hσ : ∀ i : Fin l.length, l.getD ↑i 0 = ((σ i : Nat) : Int)) :
    ∃ sw : List (Equiv.Perm (Fin l.length)),
      (∀ g ∈ sw, Equiv.Perm.IsSwap g) ∧ List.prod sw = σ ∧
      is_even l = some (flipN sw.length true) := by
  obtain ⟨vis0, hmark, hchar⟩ := markF_some l.length
    (List.replicate l.length none) (by rw [List.length_replicate]) hg.1
  have hlen0 : vis0.length = l.length := by
    rw [markF_length l l.length _ _ hmark, List.length_replicate]
  have hentry0 : ∀ q : Fin l.length, vis0.getD ↑q none = some false := by
    intro q
    rw [hchar ↑q, if_pos ⟨((q : Nat) : Int), hg.2 ↑q q.isLt,
      Int.toNat_natCast _⟩]
  have hany : vis0.any (fun o => o.isNone) = false := by
    rw [List.any_eq_false]
    intro x hx
    rw [List.mem_iff_getElem] at hx
    obtain ⟨i, hi, rfl⟩ := hx
    have hi2 : i < l.length := by omega
    have he := hentry0 ⟨i, hi2⟩
    rw [show ((⟨i, hi2⟩ : Fin l.length) : Nat) = i from rfl,
      List.getD_eq_getElem vis0 none hi] at he
    simp [he]
  obtain ⟨sw2, vis2, hsw2, hprod2, hrun2⟩ := evenLoop_spec l σ hσ
    (permGood_nodup hg) hg.1 l [] true vis0 (fun _ => False) []
    rfl hlen0 (fun q => Or.inr (hentry0 q))
    (fun q hq => by rw [hentry0 q] at hq; simp at hq)
    (fun q hq => hq.elim) (fun q hq => hq.elim)
    (fun q _ => hg.2 ↑q q.isLt)
    (fun g hgm => absurd hgm (List.not_mem_nil g))
    (fun q hq => hq.elim)
    (fun q _ => by
      show ([] : List (Equiv.Perm (Fin l.length))).prod q = q
      simp)
    (by
      show true = flipN ([] : List (Equiv.Perm (Fin l.length))).length true
      simp [flipN])
  refine ⟨sw2, hsw2, hprod2, ?_⟩
  rw [is_even_eq_of_mark_some hmark, hany, if_neg Bool.false_ne_true, hrun2]

/-- **C10.** `is_even` (validate.py) is total and defensive: on every
input list it terminates with a boolean (the walk fuel `n + 1` is never
exhausted); it returns `False` whenever the list is not a listing of
`0 .. n-1` (an out-of-range entry trips the range check, a duplicate
leaves some index unmarked); and on a genuine permutation it returns
`True` exactly when the permutation is even — equivalently, when its
sign is `1`, equivalently when it is a product of an even number of
transpositions (the docstring's definition of even). -/
theorem is_even_spec (l : List Int) :
    (∃ b, is_even l = some b) ∧
    (¬ permGood l → is_even l = some false) ∧
    (permGood l →
      (∃ σ : Equiv.Perm (Fin l.length),
        ∀ i : Fin l.length, l.getD ↑i 0 = ((σ i : Nat) : Int)) ∧
      ∀ σ : Equiv.Perm (Fin l.length),
        (∀ i : Fin l.length, l.getD ↑i 0 = ((σ i : Nat) : Int)) →
        ((is_even l = some true ↔ Equiv.Perm.sign σ = 1) ∧
         (is_even l = some true ↔
           ∃ sw : List (Equiv.Perm (Fin l.length)),
             (∀ g ∈ sw, Equiv.Perm.IsSwap g) ∧ List.prod sw = σ ∧
             Even sw.length))) := by
  have hdef : ¬ permGood l → is_even l = some false := by
    intro hbad
    rcases Classical.em (∀ m ∈ l, 0 ≤ m ∧ m < (l.length : Int)) with hA | hA
    · have hB : ∃ j, j < l.length ∧ (j : Int) ∉ l := by
        by_contra hc
        push_neg at hc
        exact hbad ⟨hA, hc⟩
      obtain ⟨j, hj, hjn⟩ := hB
      obtain ⟨vis0, hmark, hchar⟩ := markF_some l.length
        (List.replicate l.length none) (by rw [List.length_replicate]) hA
      have hlen0 : vis0.length = l.length := by
        rw [markF_length l l.length _ _ hmark, List.length_replicate]
      have hent : vis0.getD j none = none := by
        rw [hchar j, if_neg]
        · simp [List.getD_eq_getElem?_getD, List.getElem?_replicate, hj]
        · rintro ⟨m, hm, hmj⟩
          have h0 := hA m hm
          have hmeq : m = (j : Int) := by omega
          rw [hmeq] at hm
          exact hjn hm
      have hanyT : vis0.any (fun o => o.isNone) = true := by
        rw [List.any_eq_true]
        refine ⟨none, ?_, rfl⟩
        have hjlen : j < vis0.length := by omega
        have hje : vis0[j] = none := by
          rw [← List.getD_eq_getElem vis0 none hjlen]
          exact hent
        rw [← hje]
        exact List.getElem_mem _
      rw [is_even_eq_of_mark_some hmark, hanyT, if_pos rfl]
    · have hex : ∃ m ∈ l, ¬(0 ≤ m ∧ m < (l.length : Int)) := by
        by_contra hc
        push_neg at hc
        exact hA (fun m hm => hc m hm)
      exact is_even_eq_of_mark_none (markF_none l.length _ hex)
  refine ⟨?_, hdef, ?_⟩
  · rcases Classical.em (permGood l) with hg | hg
    · obtain ⟨σ, hσ⟩ := permGood_equiv hg
      obtain ⟨sw, _, _, hrun⟩ := is_even_run hg σ hσ
      exact ⟨_, hrun⟩
    · exact ⟨false, hdef hg⟩
  · intro hg
    refine ⟨permGood_equiv hg, fun σ hσ => ?_⟩
    obtain ⟨sw, hswAll, hprod, hrun⟩ := is_even_run hg σ hσ
    have hiff1 : is_even l = some true ↔ Even sw.length := by
      rw [hrun]
      simp only [Option.some.injEq]
      exact flipN_true_iff sw.length
    have hsig : Equiv.Perm.sign σ = (-1) ^ sw.length := by
      rw [← hprod]
      exact Equiv.Perm.sign_prod_list_swap hswAll
    have hiff2 : Equiv.Perm.sign σ = 1 ↔ Even sw.length := by
      rw [hsig]
      constructor
      · intro h1
        by_contra hodd
        rw [Nat.not_even_iff_odd] at hodd
        rw [Odd.neg_one_pow hodd] at h1
        have h2 := congrArg Units.val h1
        simp at h2
      · intro h2
        exact Even.neg_one_pow h2
    refine ⟨?_, ?_, ?_⟩
    · rw [hiff1]
      exact hiff2.symm
    · intro h
      exact ⟨sw, hswAll, hprod, hiff1.mp h⟩
    · rintro ⟨sw2, hsw2, hprod2, heven2⟩
      have h1 : Equiv.Perm.sign σ = 1 := by
        rw [← hprod2, Equiv.Perm.sign_prod_list_swap hsw2]
        exact Even.neg_one_pow heven2
      exact hiff1.mpr (hiff2.mp h1)

/-- Witness for `is_even_spec`: the singleton list `[3]` is rejected
by the range check and `is_even` returns `False` on it. -/
theorem is_even_spec_witness :
    ¬ permGood [(3 : Int)] ∧ is_even [(3 : Int)] = some false :=
  ⟨by decide, (is_even_spec [(3 : Int)]).2.1 (by decide)⟩


/-- Mutable-heap model of history.py: each Python list node `[move,
next]` is a heap cell addressed by its allocation index; `move` is
`none` only for the anchor that `size()` prepends, `next` is `none` for
Python `None`. -/
abbrev HHeap : Type := List (Option Nat × Option Nat)

def hCar (h : HHeap) (a : Nat) : Option Nat := (List.getD h a (none, none)).1

def hCdr (h : HHeap) (a : Nat) : Option Nat := (List.getD h a (none, none)).2

def hSetCar (h : HHeap) (a : Nat) (v : Option Nat) : HHeap :=
  List.set h a (v, hCdr h a)

def hSetCdr (h : HHeap) (a : Nat) (p : Option Nat) : HHeap :=
  List.set h a (hCar h a, p)

/-- `History.add(move)`: allocate `[move, self.history]` and point the
history at it. -/
def hAdd (h : HHeap) (head : Option Nat) (mv : Nat) : HHeap × Option Nat :=
  (h ++ [(some mv, head)], some (List.length h))

/-- The inner `while current and current[1]` scan of `History.size`,
with every pointer write performed on the shared heap: the pair rule
edits `previous`/`current` in place, the sandwich rule edits `current`
in place and (in its combining case only) allocates the copy node the
comment calls for.  Returns the heap, the final `previous` and the
`size` counter. -/
def innerF : Nat → HHeap → Option Nat → Nat → Nat →
    Option (HHeap × Nat × Nat)
  | 0, _, _, _, _ => none
  | fuel + 1, h, cur, prev, size =>
    match cur with
    | none => some (h, prev, size)
    | some c =>
      match hCdr h c with
      | none => some (h, prev, size)
      | some c1 =>
        let ccar := (hCar h c).getD 0
        let c1car := (hCar h c1).getD 0
        if ccar / 3 = c1car / 3 then
          let cmod := ccar % 3
          let msum := cmod + c1car % 3
          if msum = 2 then
            let cur2 := hCdr h c1
            innerF fuel (hSetCdr h prev cur2) cur2 prev 0
          else
            let h2 := hSetCar h c (some (ccar + (msum + 1) % 4 - cmod))
            innerF fuel (hSetCdr h2 c (hCdr h2 c1)) (some c) prev 0
        else
          match hCdr h c1 with
          | none => innerF fuel h (some c1) c (if size = 0 then 0 else size + 1)
          | some c2 =>
            let c2car := (hCar h c2).getD 0
            if ccar / 6 = c1car / 6 ∧ ccar / 3 = c2car / 3 then
              let cmod := ccar % 3
              let msum := cmod + c2car % 3
              if msum = 2 then
                let h2 := hSetCar h c (some c1car)
                innerF fuel (hSetCdr h2 c (hCdr h2 c2)) (some c) prev 0
              else
                let h2 := hSetCar h c (some (ccar + (msum + 1) % 4 - cmod))
                let a2 := List.length h2
                let h3 := h2 ++ [(some c1car, hCdr h2 c2)]
                innerF fuel (hSetCdr h3 c (some a2)) (some c) prev 0
            else
              innerF fuel h (some c1) c (if size = 0 then 0 else size + 1)

/-- The outer `while not size` loop: rescan from the anchor until a
pass makes no edit. -/
def outerF : Nat → Nat → HHeap → Option Nat → Nat → Option (HHeap × Nat)
  | 0, _, _, _, _ => none
  | ofuel + 1, ifuel, h, cur, anchor =>
    match innerF ifuel h cur anchor 1 with
    | none => none
    | some (h2, _, size2) =>
      if size2 = 0 then outerF ofuel ifuel h2 (hCdr h2 anchor) anchor
      else some (h2, size2)

/-- `History.size()` on the heap: prepend the anchor, scan to a fixed
point, promote past the anchor, and return the count (0 for the empty
chain) with the mutated heap and new head. -/
def hSize (fuel : Nat) (h : HHeap) (head : Option Nat) :
    Option (Nat × HHeap × Option Nat) :=
  let anchor := List.length h
  match outerF fuel fuel (h ++ [(none, head)]) head anchor with
  | none => none
  | some (h2, size) =>
    let newHead := hCdr h2 anchor
    some ((if newHead.isSome then size else 0), h2, newHead)

def hGetWalk : Nat → HHeap → Option Nat → List String
  | 0, _, _ => []
  | k + 1, h, ptr =>
    match ptr with
    | none => []
    | some a => moveLabel ((hCar h a).getD 0) :: hGetWalk k h (hCdr h a)

/-- `History.get()` on the heap: compress (destructively), then read
off the labels oldest-first. -/
def hGet (fuel : Nat) (h : HHeap) (head : Option Nat) :
    Option (List String × HHeap × Option Nat) :=
  match hSize fuel h head with
  | none => none
  | some (size, h2, newHead) =>
    some ((hGetWalk size h2 newHead).reverse, h2, newHead)

/-- Build a chain by adding the moves in order. -/
def hBuild (h : HHeap) (head : Option Nat) : List Nat → HHeap × Option Nat
  | [] => (h, head)
  | m :: rest =>
    let r := hAdd h head m
    hBuild r.1 r.2 rest

set_option maxRecDepth 8000 in
/-- Sanity anchor (tests.py): on an unshared chain the heap model
compresses the 20-move test history to the same labels as the test
expects. -/
theorem heap_model_tests_anchor :
    (hGet 300 (hBuild [] none testMoves).1 (hBuild [] none testMoves).2).map
        (fun r => r.1) =
      some ["R'", "B2", "F2", "U", "L'", "R", "F", "R'", "B'"] := by decide

/-- The shared-history scenario: A holds `L L R L'`, B copies A (the
heads and all nodes are shared), then A appends `R'` and `L` and runs
`size()`. -/
def cexBase : HHeap × Option Nat := hBuild [] none [0, 0, 3, 2]

def cexAfterA : HHeap × Option Nat := hBuild cexBase.1 cexBase.2 [5, 0]

set_option maxRecDepth 4000 in
/-- **C1.** Structural sharing safety is violated: immediately after `cubeB.copy(cubeA)`,
`cubeB.get_history()` would return `[L, R]`; after `cubeA` appends two
moves and runs its own compression, the same call on the untouched
`cubeB` head returns `[R, L]`: `cubeA`'s `size()` edited, through the
pair-combining rule, the node `[0 (L), ·]` still reachable from
`cubeB`'s head into `[1 (L2), None]`, changing what `cubeB` observes. -/
theorem history_sharing_violated :
    (hGet 100 cexBase.1 cexBase.2).map (fun r => r.1) = some ["L", "R"] ∧
    ((hSize 100 cexAfterA.1 cexAfterA.2).map
      (fun r => (hGet 100 r.2.1 cexBase.2).map (fun s => s.1))) =
      some (some ["R", "L"]) ∧
    (["R", "L"] : List String) ≠ ["L", "R"] := by decide

end Rubary
